import Mathlib

/-!
Verification of the project-scaffolding core of `script/startup/create_project.py`.

The script materializes a directory/file tree from a declarative YAML
specification.  This file gives a shallow embedding of its core:

* the parsed specification tree (`Node`, `FileEntry`),
* the filesystem as explicit state (`FS`: a set of directories plus a map
  from paths to text contents),
* the pure helpers `render`, `should_include`, `cond_pass` and the variable
  layering of `main`,
* the recursive traversal `walk` (both dry-run and real mode), with errors
  as `Except Err`.

Paths are lists of segments; file contents are modelled as text (the script's
`is_text_file` decoding probe succeeds on every stored file, so
`copy_rendered` always takes the text branch; the byte-for-byte binary copy
branch has no distinct behaviour in this model).
-/

/-- A filesystem path, as a list of segments (the resolved form the script
manipulates via `pathlib`). -/
abbrev FsPath := List String

/-- The variable mapping: an insertion-ordered association list mirroring a
Python `dict` from string keys to string values. -/
abbrev VarMap := List (String × String)

/-- One `files:` entry of a YAML node.  Every key is optional in the raw
document, hence the `Option` fields; `walk` itself enforces that `name` is
present. -/
structure FileEntry where
  name : Option String
  content : Option String
  «from» : Option String
  only_if : Option String
  deriving DecidableEq, Repr

/-- One directory node of the YAML specification tree. -/
structure Node where
  dir : Option String
  id : Option String
  optional : Bool
  files : List FileEntry
  children : List Node

/-- The modelled filesystem: the set of existing directories and the existing
text files with their contents.  (File/directory name collisions are outside
the model: the script would hit `IsADirectoryError`-style failures there.) -/
structure FS where
  dirs : List FsPath
  files : List (FsPath × String)
  deriving DecidableEq, Repr

/-- Errors the traversal can raise, mirroring the exceptions of the script:
`ValueError` for a node missing `dir`, a file entry missing `name` and a
malformed `only_if`; `FileExistsError` for a conflict; `FileNotFoundError`
for a missing template source; and the IO failure of reading a non-file. -/
inductive Err where
  | missingDir : Err
  | missingName : FsPath → Err
  | condParse : String → Err
  | conflict : FsPath → Err
  | missingTemplate : FsPath → Err
  | ioError : FsPath → Err
  deriving DecidableEq, Repr

/-- A record appended to the `created` action list: `("DIR", path)` or
`("FILE", dst [<- src])`. -/
inductive Act where
  | DIR : FsPath → Act
  | FILE : FsPath → Option FsPath → Act
  deriving DecidableEq, Repr

/-- The placeholder form `\x7b\x7bKEY\x7d\x7d` of a variable key. -/
def placeholder (k : String) : String := "\x7b\x7b" ++ k ++ "\x7d\x7d"

/-- Replace every occurrence of `pat` in a character list by `rep`, scanning
left to right and consuming matches greedily without overlap — the semantics
of Python's `str.replace`.  (The guard `pat ≠ []` only rules out the empty
pattern, which never arises: placeholders have at least four characters.) -/
def listReplace (pat rep : List Char) : List Char → List Char
  | [] => []
  | c :: rest =>
    if pat ≠ [] ∧ pat.isPrefixOf (c :: rest) = true then
      rep ++ listReplace pat rep (rest.drop (pat.length - 1))
    else
      c :: listReplace pat rep rest
  termination_by s => s.length
  decreasing_by
  · simp only [List.length_drop, List.length_cons]; omega
  · simp only [List.length_cons]; omega

/-- String-level `s.replace(pat, rep)`. -/
def strReplace (s pat rep : String) : String := ⟨listReplace pat.data rep.data s.data⟩

/-- `render(s, vars_)`: replace `\x7b\x7bVAR\x7d\x7d` tokens in `s` with
`vars_[VAR]`, one `str.replace` per key in insertion order. -/
def render (s : String) (vars_ : VarMap) : String :=
  vars_.foldl (fun out kv => strReplace out (placeholder kv.1) kv.2) s

/-- Join pieces with a separator: the decomposition witness used to state
what one `str.replace` pass does (the input is the pieces joined by the
pattern, the output the pieces joined by the replacement). -/
def joinWith (sep : List Char) : List (List Char) → List Char
  | [] => []
  | [x] => x
  | x :: y :: t => x ++ sep ++ joinWith sep (y :: t)

/-- Python `str.strip()`: drop leading and trailing whitespace. -/
def pyStrip (s : String) : String :=
  ⟨((s.data.dropWhile Char.isWhitespace).reverse.dropWhile Char.isWhitespace).reverse⟩

/-- First-match lookup in the variable mapping (`dict` lookup: keys are
unique in a real `dict`, the first binding wins in this model). -/
def dictGet : VarMap → String → Option String
  | [], _ => none
  | e :: t, k => if e.1 == k then some e.2 else dictGet t k

/-- `vars_.get(k, d)`. -/
def dictGetD (m : VarMap) (k : String) (d : String) : String := (dictGet m k).getD d

/-- Python `dict` assignment `m[k] = v`: overwrite the value in place at the
key's binding if the key is bound, else append a new binding at the end. -/
def dictInsert : VarMap → String → String → VarMap
  | [], k, v => [(k, v)]
  | e :: t, k, v => if e.1 == k then (k, v) :: t else e :: dictInsert t k v

/-- Python `m.update(upd)`: assign every binding of `upd` in order. -/
def dictUpdate (m : VarMap) (upd : VarMap) : VarMap :=
  upd.foldl (fun acc e => dictInsert acc e.1 e.2) m

/-- The variable construction of `main`: `vars_ = dict(defaults)`, then
`vars_.update(overrides)`, then `vars_["PROJECT"] = project`. -/
def buildVars (defaults overrides : VarMap) (project : String) : VarMap :=
  dictInsert (dictUpdate defaults overrides) "PROJECT" project

/-- Value of the last binding of `k` in a list of bindings — the binding
that survives when the list is applied as a sequence of `dict` assignments. -/
def dictGetLast : VarMap → String → Option String
  | [], _ => none
  | e :: t, k =>
    match dictGetLast t k with
    | some v => some v
    | none => if e.1 == k then some e.2 else none

/-- Truthiness of `node.get("id")`: an absent id and the empty-string id are
both falsy. -/
def idTruthy : Option String → Bool
  | none => false
  | some s => !(s == "")

/-- `should_include(node, enabled_set)`: include if not optional, or if
optional with a (truthy) id that is a member of the enabled set. -/
def should_include (node : Node) (enabled_set : List String) : Bool :=
  if node.optional && idTruthy node.id then enabled_set.contains (node.id.getD "")
  else true

/-- `cond_pass(only_if, vars_)`: true when `only_if` is absent or empty;
a `ValueError` when it contains no `=`; otherwise split at the first `=`
and compare `vars_.get(key.strip(), "")` with `value.strip()`. -/
def cond_pass : Option String → VarMap → Except Err Bool
  | none, _ => .ok true
  | some s, vars_ =>
    if s = "" then .ok true
    else if s.data.contains '=' then
      .ok (dictGetD vars_ (pyStrip ⟨s.data.takeWhile (fun c => c ≠ '=')⟩) "" ==
        pyStrip ⟨(s.data.dropWhile (fun c => c ≠ '=')).drop 1⟩)
    else .error (.condParse s)

/-- Decidable equality of fallible results, for concrete evaluation. -/
instance {ε α : Type} [DecidableEq ε] [DecidableEq α] : DecidableEq (Except ε α) := fun a b =>
  match a, b with
  | .ok x, .ok y => if h : x = y then .isTrue (by rw [h]) else .isFalse (by simp [h])
  | .error x, .error y => if h : x = y then .isTrue (by rw [h]) else .isFalse (by simp [h])
  | .ok _, .error _ => .isFalse (by simp)
  | .error _, .ok _ => .isFalse (by simp)

/-- Does any path in `fs.files` equal `p`? (`Path.exists` restricted to
files.) -/
def FS.fileExists (fs : FS) (p : FsPath) : Bool := fs.files.any (fun e => e.1 == p)

/-- `Path.exists()`: true for an existing file or an existing directory. -/
def FS.exists (fs : FS) (p : FsPath) : Bool := fs.fileExists p || fs.dirs.contains p

/-- Content of the file at `p`, if a file is there. -/
def FS.getFile (fs : FS) (p : FsPath) : Option String :=
  (fs.files.find? (fun e => e.1 == p)).map Prod.snd

/-- `p.write_text(c)`: create or overwrite the file at `p`. -/
def FS.writeFile (fs : FS) (p : FsPath) (c : String) : FS :=
  { fs with files := (p, c) :: fs.files.filter (fun e => !(e.1 == p)) }

/-- `p.mkdir(parents=True, exist_ok=True)`: add every prefix of `p` that is
not already a directory. -/
def FS.mkdirP (fs : FS) (p : FsPath) : FS :=
  { fs with dirs := fs.dirs ++ p.inits.filter (fun q => !(fs.dirs.contains q)) }

/-- `p.touch()`: create an empty file if nothing exists at `p`; an existing
file (or directory) is left as is — in particular the content of an existing
file is not truncated. -/
def FS.touch (fs : FS) (p : FsPath) : FS :=
  if fs.exists p then fs else fs.writeFile p ""

/-- `copy_rendered(src, dst, vars_)`: ensure `dst`'s parent directory, read
the source text and write it to `dst` with tokens rendered.  Reading a path
that exists but is not a file fails with an IO error. -/
def copy_rendered (fs : FS) (src dst : FsPath) (vars_ : VarMap) : Except Err FS :=
  match fs.getFile src with
  | some text => .ok ((fs.mkdirP dst.dropLast).writeFile dst (render text vars_))
  | none => .error (.ioError src)

/-- The body of `walk`'s per-file loop: check `name`, resolve the
destination, evaluate `only_if`; in dry-run mode record a `FILE` action; in
real mode apply the conflict policy (`add` skips existing files, `force`
overwrites, otherwise an existing destination is an error) and materialize
the content from `content`, `from` or by `touch`. -/
def processEntry (force add dry : Bool) (vars_ : VarMap) (template_root : FsPath)
    (dir_path : FsPath) (f : FileEntry) (fs : FS) (created : List Act) :
    Except Err (FS × List Act) :=
  match f.name with
  | none => .error (.missingName dir_path)
  | some nm =>
    let dst := dir_path ++ [render nm vars_]
    match cond_pass f.only_if vars_ with
    | .error e => .error e
    | .ok false => .ok (fs, created)
    | .ok true =>
      if dry then
        .ok (fs, created ++ [Act.FILE dst (f.«from».map (fun s => template_root ++ [s]))])
      else if fs.exists dst && add && !force then
        .ok (fs, created)
      else if fs.exists dst && !force then
        .error (.conflict dst)
      else
        match f.content with
        | some c => .ok ((fs.mkdirP dst.dropLast).writeFile dst (render c vars_), created)
        | none =>
          match f.«from» with
          | some s =>
            let src := template_root ++ [s]
            if fs.exists src then
              match copy_rendered fs src dst vars_ with
              | .ok fs' => .ok (fs', created)
              | .error e => .error e
            else .error (.missingTemplate src)
          | none => .ok ((fs.mkdirP dst.dropLast).touch dst, created)

/-- The `for f in node.get("files")` loop of `walk`. -/
def walkFiles (force add dry : Bool) (vars_ : VarMap) (template_root : FsPath)
    (dir_path : FsPath) : List FileEntry → FS → List Act → Except Err (FS × List Act)
  | [], fs, created => .ok (fs, created)
  | f :: rest, fs, created =>
    match processEntry force add dry vars_ template_root dir_path f fs created with
    | .error e => .error e
    | .ok (fs', created') =>
      walkFiles force add dry vars_ template_root dir_path rest fs' created'

mutual

/-- `walk(node, cwd, vars_, template_root, enabled_set, force, dry_run, add,
created)`: require `dir`, resolve the directory path, and if the node is
included create (or, dry, record) the directory, process the files, and
recurse into the included children. -/
def walk (force add dry : Bool) (vars_ : VarMap) (template_root : FsPath)
    (enabled_set : List String) (node : Node) (cwd : FsPath) (fs : FS)
    (created : List Act) : Except Err (FS × List Act) :=
  match node.dir with
  | none => .error .missingDir
  | some nm =>
    let dir_path := cwd ++ [render nm vars_]
    if should_include node enabled_set then
      let st :=
        if dry then (fs, created ++ [Act.DIR dir_path])
        else (fs.mkdirP dir_path, created)
      match walkFiles force add dry vars_ template_root dir_path node.files st.1 st.2 with
      | .error e => .error e
      | .ok (fs2, created2) =>
        walkChildren force add dry vars_ template_root enabled_set node.children dir_path
          fs2 created2
    else .ok (fs, created)
  termination_by sizeOf node
  decreasing_by cases node; simp

/-- The `for child in node.get("children")` loop of `walk`: skip children
excluded by `should_include`, recurse into the rest. -/
def walkChildren (force add dry : Bool) (vars_ : VarMap) (template_root : FsPath)
    (enabled_set : List String) (children : List Node) (dir_path : FsPath) (fs : FS)
    (created : List Act) : Except Err (FS × List Act) :=
  match children with
  | [] => .ok (fs, created)
  | c :: rest =>
    if should_include c enabled_set then
      match walk force add dry vars_ template_root enabled_set c dir_path fs created with
      | .error e => .error e
      | .ok (fs', created') =>
        walkChildren force add dry vars_ template_root enabled_set rest dir_path fs' created'
    else walkChildren force add dry vars_ template_root enabled_set rest dir_path fs created
  termination_by sizeOf children
  decreasing_by all_goals (simp <;> omega)

end

/-- The per-entry step of the real run, instrumented with the action records
of the operations it performs.  Follows the specification's description of a
real run's action ordering; a skipped file performs no operation and records
nothing.  The record format is the dry-run one (`FILE dst [<- src]`). -/
def processEntryTrace (force add : Bool) (vars_ : VarMap) (template_root : FsPath)
    (dir_path : FsPath) (f : FileEntry) (fs : FS) : Except Err (FS × List Act) :=
  match f.name with
  | none => .error (.missingName dir_path)
  | some nm =>
    let dst := dir_path ++ [render nm vars_]
    let act := Act.FILE dst (f.«from».map (fun s => template_root ++ [s]))
    match cond_pass f.only_if vars_ with
    | .error e => .error e
    | .ok false => .ok (fs, [])
    | .ok true =>
      if fs.exists dst && add && !force then
        .ok (fs, [])
      else if fs.exists dst && !force then
        .error (.conflict dst)
      else
        match f.content with
        | some c => .ok ((fs.mkdirP dst.dropLast).writeFile dst (render c vars_), [act])
        | none =>
          match f.«from» with
          | some s =>
            let src := template_root ++ [s]
            if fs.exists src then
              match copy_rendered fs src dst vars_ with
              | .ok fs' => .ok (fs', [act])
              | .error e => .error e
            else .error (.missingTemplate src)
          | none => .ok ((fs.mkdirP dst.dropLast).touch dst, [act])

/-- The file loop of the instrumented real run. -/
def walkFilesTrace (force add : Bool) (vars_ : VarMap) (template_root : FsPath)
    (dir_path : FsPath) : List FileEntry → FS → Except Err (FS × List Act)
  | [], fs => .ok (fs, [])
  | f :: rest, fs =>
    match processEntryTrace force add vars_ template_root dir_path f fs with
    | .error e => .error e
    | .ok (fs', tr) =>
      match walkFilesTrace force add vars_ template_root dir_path rest fs' with
      | .error e => .error e
      | .ok (fs'', tr') => .ok (fs'', tr ++ tr')

mutual

/-- The real-mode `walk`, instrumented with the ordered sequence of
filesystem operations it performs (a `DIR` record at each directory
creation, a `FILE` record at each file materialization).  Returned alongside
the final filesystem; the uninstrumented `walk` with `dry = false` is its
projection (`walk_agrees_walkTrace`). -/
def walkTrace (force add : Bool) (vars_ : VarMap) (template_root : FsPath)
    (enabled_set : List String) (node : Node) (cwd : FsPath) (fs : FS) :
    Except Err (FS × List Act) :=
  match node.dir with
  | none => .error .missingDir
  | some nm =>
    let dir_path := cwd ++ [render nm vars_]
    if should_include node enabled_set then
      match walkFilesTrace force add vars_ template_root dir_path node.files
          (fs.mkdirP dir_path) with
      | .error e => .error e
      | .ok (fs2, tr2) =>
        match walkChildrenTrace force add vars_ template_root enabled_set node.children
            dir_path fs2 with
        | .error e => .error e
        | .ok (fs3, tr3) => .ok (fs3, Act.DIR dir_path :: (tr2 ++ tr3))
    else .ok (fs, [])
  termination_by sizeOf node
  decreasing_by cases node; simp

/-- The children loop of the instrumented real run. -/
def walkChildrenTrace (force add : Bool) (vars_ : VarMap) (template_root : FsPath)
    (enabled_set : List String) (children : List Node) (dir_path : FsPath) (fs : FS) :
    Except Err (FS × List Act) :=
  match children with
  | [] => .ok (fs, [])
  | c :: rest =>
    if should_include c enabled_set then
      match walkTrace force add vars_ template_root enabled_set c dir_path fs with
      | .error e => .error e
      | .ok (fs', tr) =>
        match walkChildrenTrace force add vars_ template_root enabled_set rest dir_path
            fs' with
        | .error e => .error e
        | .ok (fs'', tr') => .ok (fs'', tr ++ tr')
    else walkChildrenTrace force add vars_ template_root enabled_set rest dir_path fs
  termination_by sizeOf children
  decreasing_by all_goals (simp <;> omega)

end

/-- Extension order on filesystems: everything that exists keeps existing. -/
def fsLE (a b : FS) : Prop :=
  (∀ p, p ∈ a.dirs → p ∈ b.dirs) ∧ (∀ p, a.fileExists p = true → b.fileExists p = true)


/-! ### Helper lemmas: `cond_pass` -/

theorem takeWhile_until_eq (l r : List Char) (h : '=' ∉ l) :
    (l ++ '=' :: r).takeWhile (fun c => c ≠ '=') = l := by
  induction l with
  | nil => rw [List.nil_append, List.takeWhile_cons, if_neg (by simp)]
  | cons a t ih =>
    have ha : a ≠ '=' := fun e => h (by simp [e])
    have ht : '=' ∉ t := fun m => h (List.mem_cons_of_mem a m)
    rw [List.cons_append, List.takeWhile_cons, if_pos (by simpa using ha), ih ht]

theorem dropWhile_until_eq (l r : List Char) (h : '=' ∉ l) :
    (l ++ '=' :: r).dropWhile (fun c => c ≠ '=') = '=' :: r := by
  induction l with
  | nil => rw [List.nil_append, List.dropWhile_cons, if_neg (by simp)]
  | cons a t ih =>
    have ha : a ≠ '=' := fun e => h (by simp [e])
    have ht : '=' ∉ t := fun m => h (List.mem_cons_of_mem a m)
    rw [List.cons_append, List.dropWhile_cons, if_pos (by simpa using ha), ih ht]

/-! ### Helper lemmas: the variable mapping -/

theorem dictGet_dictInsert_self (m : VarMap) (k v : String) :
    dictGet (dictInsert m k v) k = some v := by
  induction m with
  | nil => simp [dictInsert, dictGet]
  | cons e t ih =>
    cases he : (e.1 == k) with
    | true => simp [dictInsert, he, dictGet]
    | false => simp [dictInsert, he, dictGet, ih]

theorem dictGet_dictInsert_ne (m : VarMap) (k v k' : String) (hne : k' ≠ k) :
    dictGet (dictInsert m k v) k' = dictGet m k' := by
  have hkk' : (k == k') = false := beq_false_of_ne (fun h => hne h.symm)
  induction m with
  | nil => simp [dictInsert, dictGet, hkk']
  | cons e t ih =>
    cases he : (e.1 == k) with
    | true =>
      have he' : (e.1 == k') = false := by
        have := beq_iff_eq.mp he
        exact beq_false_of_ne (fun h => hne (by rw [← h, this]))
      simp [dictInsert, he, dictGet, hkk', he']
    | false => cases hek : (e.1 == k') <;> simp [dictInsert, he, dictGet, hek, ih]

theorem dictGet_dictUpdate (d o : VarMap) (k : String) :
    dictGet (dictUpdate d o) k =
      match dictGetLast o k with
      | some v => some v
      | none => dictGet d k := by
  induction o generalizing d with
  | nil => simp [dictUpdate, dictGetLast]
  | cons e t ih =>
    show dictGet (dictUpdate (dictInsert d e.1 e.2) t) k = _
    rw [ih (dictInsert d e.1 e.2)]
    cases hlast : dictGetLast t k with
    | some v => simp [dictGetLast, hlast]
    | none =>
      cases he : (e.1 == k) with
      | true =>
        have heq : e.1 = k := beq_iff_eq.mp he
        subst heq
        simp [dictGetLast, hlast, dictGet_dictInsert_self d e.1 e.2]
      | false =>
        have hne : e.1 ≠ k := by simpa using he
        simp [dictGetLast, hlast, he,
          dictGet_dictInsert_ne d e.1 e.2 k (fun h => hne h.symm)]

/-! ### Claim C6: `cond_pass` -/

/-- C6: `cond_pass` on an absent or empty `only_if` returns true; on a
predicate string containing no `=` it raises a parse error; otherwise,
splitting at the first `=` into key and value, it returns true iff the
variable mapping's value for the stripped key (a missing key treated as the
empty string) equals the stripped value exactly and case-sensitively. -/
theorem cond_pass_spec :
    (∀ vars_, cond_pass none vars_ = .ok true)
    ∧ (∀ vars_, cond_pass (some "") vars_ = .ok true)
    ∧ (∀ s vars_, s ≠ "" → s.data.contains '=' = false →
        cond_pass (some s) vars_ = .error (.condParse s))
    ∧ (∀ s k v vars_, s.data = k.data ++ '=' :: v.data → '=' ∉ k.data →
        cond_pass (some s) vars_ =
          .ok (dictGetD vars_ (pyStrip k) "" == pyStrip v)) := by
  refine ⟨fun _ => rfl, fun _ => rfl, ?_, ?_⟩
  · intro s vars_ hne hc
    simp only [cond_pass]
    rw [if_neg hne, if_neg (by rw [hc]; exact Bool.false_ne_true)]
  · intro s k v vars_ hdecomp hk
    obtain ⟨kd⟩ := k
    obtain ⟨vd⟩ := v
    have hdecomp' : s.data = kd ++ '=' :: vd := hdecomp
    have hk' : '=' ∉ kd := hk
    have hsne : s ≠ "" := by
      intro h
      have hlen := congrArg List.length hdecomp'
      rw [h] at hlen
      simp at hlen
      omega
    have hcontains : s.data.contains '=' = true := by
      rw [hdecomp']
      simp
    simp only [cond_pass]
    rw [if_neg hsne, if_pos hcontains, hdecomp',
      takeWhile_until_eq _ _ hk', dropWhile_until_eq _ _ hk']
    rfl

/-- Witness for C6 at concrete predicates. -/
theorem cond_pass_spec_witness :
    cond_pass (some "sim = gtkwave") [("sim", "gtkwave")] = .ok true
    ∧ cond_pass (some "nope") [("sim", "gtkwave")] = .error (.condParse "nope") := by
  constructor
  · rw [cond_pass_spec.2.2.2 "sim = gtkwave" "sim " " gtkwave" [("sim", "gtkwave")]
      (by decide) (by decide)]
    decide
  · exact cond_pass_spec.2.2.1 "nope" [("sim", "gtkwave")] (by decide) (by decide)

/-! ### Claim C9: variable layering in `main` -/

/-- C9: the variable mapping is layered from defaults, then overrides, then
the reserved key `PROJECT`, in increasing priority: `PROJECT` always maps to
the project name (even when defaults or overrides bind it), and every other
key takes its last override value, falling back to its defaults value. -/
theorem buildVars_spec :
    (∀ defaults overrides project,
      dictGet (buildVars defaults overrides project) "PROJECT" = some project)
    ∧ (∀ defaults overrides project k, k ≠ "PROJECT" →
        dictGet (buildVars defaults overrides project) k =
          match dictGetLast overrides k with
          | some v => some v
          | none => dictGet defaults k) := by
  constructor
  · intro d o p
    exact dictGet_dictInsert_self (dictUpdate d o) "PROJECT" p
  · intro d o p k hk
    rw [buildVars, dictGet_dictInsert_ne _ _ _ _ hk, dictGet_dictUpdate]

/-- Witness for C9: overrides and defaults both binding `PROJECT` lose to the
project name; another key takes its override value. -/
theorem buildVars_spec_witness :
    dictGet (buildVars [("PROJECT", "a"), ("x", "1")] [("PROJECT", "b"), ("x", "2")] "Demo")
        "PROJECT" = some "Demo"
    ∧ dictGet (buildVars [("PROJECT", "a"), ("x", "1")] [("PROJECT", "b"), ("x", "2")] "Demo")
        "x" = some "2" := by
  constructor
  · exact buildVars_spec.1 _ _ _
  · rw [buildVars_spec.2 _ _ "Demo" "x" (by decide)]
    decide

/-! ### Helper lemmas: unfolding the traversal -/

theorem walk_eq (force add dry : Bool) (vars_ : VarMap) (troot : FsPath)
    (enabled : List String) (node : Node) (cwd : FsPath) (fs : FS) (created : List Act) :
    walk force add dry vars_ troot enabled node cwd fs created =
      match node.dir with
      | none => .error .missingDir
      | some nm =>
        let dir_path := cwd ++ [render nm vars_]
        if should_include node enabled then
          let st :=
            if dry then (fs, created ++ [Act.DIR dir_path])
            else (fs.mkdirP dir_path, created)
          match walkFiles force add dry vars_ troot dir_path node.files st.1 st.2 with
          | .error e => .error e
          | .ok (fs2, created2) =>
            walkChildren force add dry vars_ troot enabled node.children dir_path
              fs2 created2
        else .ok (fs, created) := by
  rw [walk]

theorem walkChildren_nil (force add dry : Bool) (vars_ : VarMap) (troot : FsPath)
    (enabled : List String) (dir_path : FsPath) (fs : FS) (created : List Act) :
    walkChildren force add dry vars_ troot enabled [] dir_path fs created =
      .ok (fs, created) := by
  rw [walkChildren]

theorem walkChildren_cons (force add dry : Bool) (vars_ : VarMap) (troot : FsPath)
    (enabled : List String) (c : Node) (rest : List Node) (dir_path : FsPath) (fs : FS)
    (created : List Act) :
    walkChildren force add dry vars_ troot enabled (c :: rest) dir_path fs created =
      if should_include c enabled then
        match walk force add dry vars_ troot enabled c dir_path fs created with
        | .error e => .error e
        | .ok (fs', created') =>
          walkChildren force add dry vars_ troot enabled rest dir_path fs' created'
      else walkChildren force add dry vars_ troot enabled rest dir_path fs created := by
  rw [walkChildren]

/-! ### Claim C8: structural errors -/

theorem walkFiles_missing_name (force add dry : Bool) (vars_ : VarMap) (troot : FsPath)
    (dir_path : FsPath) :
    ∀ files (fs : FS) (created : List Act), (∃ f ∈ files, f.name = none) →
      ∀ r, walkFiles force add dry vars_ troot dir_path files fs created ≠ .ok r := by
  intro files
  induction files with
  | nil => intro fs created h; simp at h
  | cons f rest ih =>
    intro fs created h r hok
    rcases h with ⟨g, hg, hname⟩
    rcases List.mem_cons.mp hg with hgf | hgrest
    · subst hgf
      simp only [walkFiles, processEntry, hname] at hok
      simp at hok
    · simp only [walkFiles] at hok
      cases hpe : processEntry force add dry vars_ troot dir_path f fs created with
      | error e => rw [hpe] at hok; simp at hok
      | ok p => rw [hpe] at hok; exact ih p.1 p.2 ⟨g, hgrest, hname⟩ r hok

/-- C8: `walk` aborts with a structural error when the node lacks its `dir`
key, and whenever an included node contains a file entry lacking its `name`
key the run ends in an error, never a silent skip. -/
theorem walk_structural_errors :
    (∀ force add dry vars_ troot enabled node cwd fs created, node.dir = none →
      walk force add dry vars_ troot enabled node cwd fs created = .error .missingDir)
    ∧ (∀ force add dry vars_ troot enabled node cwd fs created,
        should_include node enabled = true → (∃ f ∈ node.files, f.name = none) →
        ∀ r, walk force add dry vars_ troot enabled node cwd fs created ≠ .ok r) := by
  constructor
  · intro force add dry vars_ troot enabled node cwd fs created hdir
    rw [walk_eq, hdir]
  · intro force add dry vars_ troot enabled node cwd fs created hinc hmiss r hok
    rw [walk_eq] at hok
    cases hdir : node.dir with
    | none => rw [hdir] at hok; simp at hok
    | some nm =>
      rw [hdir] at hok
      simp only [hinc, if_true] at hok
      cases hwf : walkFiles force add dry vars_ troot (cwd ++ [render nm vars_]) node.files
          (if dry then (fs, created ++ [Act.DIR (cwd ++ [render nm vars_])])
           else (fs.mkdirP (cwd ++ [render nm vars_]), created)).1
          (if dry then (fs, created ++ [Act.DIR (cwd ++ [render nm vars_])])
           else (fs.mkdirP (cwd ++ [render nm vars_]), created)).2 with
      | error e => rw [hwf] at hok; simp at hok
      | ok p => exact walkFiles_missing_name force add dry vars_ troot _ node.files _ _ hmiss p hwf

/-- Witness for C8 at a concrete malformed specification. -/
theorem walk_structural_errors_witness :
    walk false false false [] [] [] ⟨none, none, false, [], []⟩ [] ⟨[], []⟩ [] =
      .error .missingDir
    ∧ walk false false true [] [] []
        ⟨some "d", none, false, [⟨none, none, none, none⟩], []⟩ [] ⟨[], []⟩ [] ≠
      .ok (⟨[], []⟩, []) := by
  constructor
  · exact walk_structural_errors.1 false false false [] [] [] _ [] ⟨[], []⟩ [] rfl
  · exact walk_structural_errors.2 false false true [] [] [] _ [] ⟨[], []⟩ []
      (by decide) ⟨⟨none, none, none, none⟩, by simp, rfl⟩ _

/-! ### Claim C5: inclusion and pruning -/

/-- C5: a node is included unconditionally unless it is marked optional and
carries a (non-empty) id, in which case it is included iff its id is in the
enabled-id set; an excluded node yields no filesystem change and no recorded
action regardless of its subtree (`walk` returns its inputs unchanged), and
an excluded child is skipped entirely by the children loop. -/
theorem should_include_pruning :
    (∀ node enabled, should_include node enabled = true ↔
      (node.optional = false ∨ node.id = none ∨ node.id = some ""
        ∨ ∃ s, node.id = some s ∧ s ∈ enabled))
    ∧ (∀ force add dry vars_ troot enabled node cwd fs created d,
        should_include node enabled = false → node.dir = some d →
        walk force add dry vars_ troot enabled node cwd fs created = .ok (fs, created))
    ∧ (∀ force add dry vars_ troot enabled c rest dir_path fs created,
        should_include c enabled = false →
        walkChildren force add dry vars_ troot enabled (c :: rest) dir_path fs created =
          walkChildren force add dry vars_ troot enabled rest dir_path fs created) := by
  refine ⟨?_, ?_, ?_⟩
  · intro node enabled
    cases hopt : node.optional with
    | false => simp [should_include, hopt]
    | true =>
      cases hid : node.id with
      | none => simp [should_include, idTruthy, hopt, hid]
      | some s =>
        by_cases hs : s = ""
        · subst hs
          simp [should_include, idTruthy, hopt, hid]
        · simp [should_include, idTruthy, hopt, hid, hs, List.elem_iff]
  · intro force add dry vars_ troot enabled node cwd fs created d hinc hdir
    rw [walk_eq, hdir]
    simp [hinc]
  · intro force add dry vars_ troot enabled c rest dir_path fs created hinc
    rw [walkChildren_cons, if_neg (by simp [hinc])]

/-- Witness for C5: an excluded optional node with a populated subtree
produces no action in either mode, and is skipped as a child. -/
theorem should_include_pruning_witness :
    walk false false true [] [] []
        ⟨some "d", some "opt", true, [⟨some "a", some "c", none, none⟩],
          [⟨some "e", none, false, [], []⟩]⟩ [] ⟨[], []⟩ [] =
      .ok (⟨[], []⟩, [])
    ∧ (should_include ⟨some "d", some "opt", true, [], []⟩ ["opt"] = true) := by
  constructor
  · exact should_include_pruning.2.1 false false true [] [] [] _ [] ⟨[], []⟩ [] "d"
      (by decide) rfl
  · exact (should_include_pruning.1 _ ["opt"]).mpr
      (Or.inr (Or.inr (Or.inr ⟨"opt", rfl, by simp⟩)))

/-! ### Helper lemmas: dry-run characterization -/

theorem cond_pass_error_is_parse (o : Option String) (vars_ : VarMap) (e : Err)
    (h : cond_pass o vars_ = .error e) : ∃ s, e = .condParse s := by
  cases o with
  | none => simp [cond_pass] at h
  | some s =>
    by_cases hs : s = ""
    · simp [cond_pass, hs] at h
    · by_cases hc : s.data.contains '=' = true
      · simp only [cond_pass] at h
        rw [if_neg hs, if_pos hc] at h
        simp at h
      · simp only [cond_pass] at h
        rw [if_neg hs, if_neg hc] at h
        injection h with h2
        exact ⟨s, h2.symm⟩

theorem processEntry_dry (force add : Bool) (vars_ : VarMap) (troot dir_path : FsPath)
    (f : FileEntry) (fs : FS) (created : List Act) :
    (∀ r, processEntry force add true vars_ troot dir_path f fs created = .ok r →
      r.1 = fs ∧ ∃ t, r.2 = created ++ t)
    ∧ (∀ e, processEntry force add true vars_ troot dir_path f fs created = .error e →
        ∀ p, e ≠ .missingTemplate p) := by
  cases hname : f.name with
  | none =>
    constructor
    · intro r h
      simp [processEntry, hname] at h
    · intro e h p
      simp only [processEntry, hname] at h
      simp at h
      subst h
      simp
  | some nm =>
    cases hc : cond_pass f.only_if vars_ with
    | error ec =>
      constructor
      · intro r h
        simp only [processEntry, hname, hc] at h
        simp at h
      · intro e h p heq
        simp only [processEntry, hname, hc] at h
        simp at h
        obtain ⟨s, hs⟩ := cond_pass_error_is_parse _ _ _ hc
        rw [h, heq] at hs
        simp at hs
    | ok b =>
      cases b with
      | false =>
        constructor
        · intro r h
          simp only [processEntry, hname, hc] at h
          injection h with h2
          subst h2
          exact ⟨rfl, [], by simp⟩
        · intro e h p
          simp only [processEntry, hname, hc] at h
          simp at h
      | true =>
        constructor
        · intro r h
          simp only [processEntry, hname, hc, if_pos rfl] at h
          injection h with h2
          subst h2
          exact ⟨rfl, _, rfl⟩
        · intro e h p
          simp only [processEntry, hname, hc, if_pos rfl] at h
          simp at h

theorem walkFiles_dry (force add : Bool) (vars_ : VarMap) (troot dir_path : FsPath) :
    ∀ files (fs : FS) (created : List Act),
      (∀ r, walkFiles force add true vars_ troot dir_path files fs created = .ok r →
        r.1 = fs ∧ ∃ t, r.2 = created ++ t)
      ∧ (∀ e, walkFiles force add true vars_ troot dir_path files fs created = .error e →
          ∀ p, e ≠ .missingTemplate p) := by
  intro files
  induction files with
  | nil =>
    intro fs created
    constructor
    · intro r h
      simp only [walkFiles] at h
      injection h with h2
      subst h2
      exact ⟨rfl, [], by simp⟩
    · intro e h p
      simp only [walkFiles] at h
      simp at h
  | cons f rest ih =>
    intro fs created
    constructor
    · intro r h
      simp only [walkFiles] at h
      cases hpe : processEntry force add true vars_ troot dir_path f fs created with
      | error e => rw [hpe] at h; simp at h
      | ok p =>
        rw [hpe] at h
        obtain ⟨h1, t1, ht1⟩ :=
          (processEntry_dry force add vars_ troot dir_path f fs created).1 p hpe
        obtain ⟨h2, t2, ht2⟩ := (ih p.1 p.2).1 r h
        refine ⟨by rw [h2, h1], t1 ++ t2, ?_⟩
        rw [ht2, ht1, List.append_assoc]
    · intro e h p
      simp only [walkFiles] at h
      cases hpe : processEntry force add true vars_ troot dir_path f fs created with
      | error e2 =>
        rw [hpe] at h
        simp at h
        subst h
        exact (processEntry_dry force add vars_ troot dir_path f fs created).2 _ hpe p
      | ok p2 =>
        rw [hpe] at h
        exact (ih p2.1 p2.2).2 e h p

theorem walk_dry_aux (force add : Bool) (vars_ : VarMap) (troot : FsPath)
    (enabled : List String) :
    ∀ N : Nat,
      (∀ node, sizeOf node ≤ N → ∀ cwd (fs : FS) (created : List Act),
        (∀ r, walk force add true vars_ troot enabled node cwd fs created = .ok r →
          r.1 = fs ∧ ∃ t, r.2 = created ++ t)
        ∧ (∀ e, walk force add true vars_ troot enabled node cwd fs created = .error e →
            ∀ p, e ≠ .missingTemplate p))
      ∧ (∀ children : List Node, sizeOf children ≤ N →
          ∀ dir_path (fs : FS) (created : List Act),
        (∀ r, walkChildren force add true vars_ troot enabled children dir_path fs created
            = .ok r → r.1 = fs ∧ ∃ t, r.2 = created ++ t)
        ∧ (∀ e, walkChildren force add true vars_ troot enabled children dir_path fs
            created = .error e → ∀ p, e ≠ .missingTemplate p)) := by
  intro N
  induction N with
  | zero =>
    constructor
    · intro node h
      exfalso
      cases node
      simp only [Node.mk.sizeOf_spec] at h
      omega
    · intro children h
      exfalso
      cases children with
      | nil => simp only [List.nil.sizeOf_spec] at h; omega
      | cons c cs => simp only [List.cons.sizeOf_spec] at h; omega
  | succ N ih =>
    constructor
    · intro node hN cwd fs created
      have hch : sizeOf node.children ≤ N := by
        cases node
        simp only [Node.mk.sizeOf_spec] at hN
        simp only []
        omega
      cases hdir : node.dir with
      | none =>
        constructor
        · intro r h; rw [walk_eq, hdir] at h; simp at h
        · intro e h p; rw [walk_eq, hdir] at h; simp at h; subst h; simp
      | some nm =>
        cases hinc : should_include node enabled with
        | false =>
          constructor
          · intro r h
            rw [walk_eq, hdir] at h
            simp only [hinc, Bool.false_eq_true, if_false] at h
            injection h with h2
            subst h2
            exact ⟨rfl, [], by simp⟩
          · intro e h p
            rw [walk_eq, hdir] at h
            simp only [hinc, Bool.false_eq_true, if_false] at h
            simp at h
        | true =>
          have hwalk : walk force add true vars_ troot enabled node cwd fs created =
              match walkFiles force add true vars_ troot (cwd ++ [render nm vars_])
                  node.files fs (created ++ [Act.DIR (cwd ++ [render nm vars_])]) with
              | .error e => .error e
              | .ok (fs2, created2) =>
                walkChildren force add true vars_ troot enabled node.children
                  (cwd ++ [render nm vars_]) fs2 created2 := by
            rw [walk_eq, hdir]
            simp only [hinc, if_true, if_pos rfl]
          constructor
          · intro r h
            rw [hwalk] at h
            cases hwf : walkFiles force add true vars_ troot (cwd ++ [render nm vars_])
                node.files fs (created ++ [Act.DIR (cwd ++ [render nm vars_])]) with
            | error e => rw [hwf] at h; simp at h
            | ok p =>
              rw [hwf] at h
              obtain ⟨h1, t1, ht1⟩ :=
                (walkFiles_dry force add vars_ troot _ node.files fs _).1 p hwf
              obtain ⟨h2, t2, ht2⟩ := ((ih.2 node.children hch) _ p.1 p.2).1 r h
              refine ⟨by rw [h2, h1], [Act.DIR (cwd ++ [render nm vars_])] ++ t1 ++ t2, ?_⟩
              rw [ht2, ht1]
              simp [List.append_assoc]
          · intro e h p
            rw [hwalk] at h
            cases hwf : walkFiles force add true vars_ troot (cwd ++ [render nm vars_])
                node.files fs (created ++ [Act.DIR (cwd ++ [render nm vars_])]) with
            | error e2 =>
              rw [hwf] at h
              simp at h
              subst h
              exact (walkFiles_dry force add vars_ troot _ node.files fs _).2 _ hwf p
            | ok p2 =>
              rw [hwf] at h
              exact ((ih.2 node.children hch) _ p2.1 p2.2).2 e h p
    · intro children hN dir_path fs created
      cases children with
      | nil =>
        constructor
        · intro r h
          rw [walkChildren_nil] at h
          injection h with h2
          subst h2
          exact ⟨rfl, [], by simp⟩
        · intro e h p
          rw [walkChildren_nil] at h
          simp at h
      | cons c rest =>
        have hc : sizeOf c ≤ N := by
          simp only [List.cons.sizeOf_spec] at hN
          omega
        have hrest : sizeOf rest ≤ N := by
          simp only [List.cons.sizeOf_spec] at hN
          have : 0 < sizeOf c := by cases c; simp only [Node.mk.sizeOf_spec]; omega
          omega
        cases hinc : should_include c enabled with
        | false =>
          constructor
          · intro r h
            rw [walkChildren_cons, if_neg (by simp [hinc])] at h
            exact ((ih.2 rest hrest) dir_path fs created).1 r h
          · intro e h p
            rw [walkChildren_cons, if_neg (by simp [hinc])] at h
            exact ((ih.2 rest hrest) dir_path fs created).2 e h p
        | true =>
          constructor
          · intro r h
            rw [walkChildren_cons, if_pos hinc] at h
            cases hw : walk force add true vars_ troot enabled c dir_path fs created with
            | error e => rw [hw] at h; simp at h
            | ok p =>
              rw [hw] at h
              obtain ⟨h1, t1, ht1⟩ := ((ih.1 c hc) dir_path fs created).1 p hw
              obtain ⟨h2, t2, ht2⟩ := ((ih.2 rest hrest) dir_path p.1 p.2).1 r h
              refine ⟨by rw [h2, h1], t1 ++ t2, ?_⟩
              rw [ht2, ht1, List.append_assoc]
          · intro e h p
            rw [walkChildren_cons, if_pos hinc] at h
            cases hw : walk force add true vars_ troot enabled c dir_path fs created with
            | error e2 =>
              rw [hw] at h
              simp at h
              subst h
              exact ((ih.1 c hc) dir_path fs created).2 _ hw p
            | ok p2 =>
              rw [hw] at h
              exact ((ih.2 rest hrest) dir_path p2.1 p2.2).2 e h p

/-! ### Claim C2: dry-run purity -/

/-- C2: for every specification tree, variable mapping, enabled-id set and
flag combination, a dry run of `walk` performs no filesystem mutation — the
returned filesystem equals the input one — and only appends records to the
action list it returns. -/
theorem walk_dry_run_pure (force add : Bool) (vars_ : VarMap) (troot : FsPath)
    (enabled : List String) (node : Node) (cwd : FsPath) (fs : FS) (created : List Act)
    (fs' : FS) (created' : List Act)
    (h : walk force add true vars_ troot enabled node cwd fs created = .ok (fs', created')) :
    fs' = fs ∧ ∃ t, created' = created ++ t :=
  ((walk_dry_aux force add vars_ troot enabled (sizeOf node)).1 node (le_refl _) cwd fs
    created).1 (fs', created') h

/-- Witness for C2 at a concrete one-file specification. -/
theorem walk_dry_run_pure_witness :
    walk false false true [] [] []
        ⟨some "d", none, false, [⟨some "a", some "c", none, none⟩], []⟩ [] ⟨[], []⟩ [] =
      .ok (⟨[], []⟩, [Act.DIR ["d"], Act.FILE ["d", "a"] none])
    ∧ ((⟨[], []⟩ : FS) = ⟨[], []⟩
      ∧ ∃ t, [Act.DIR ["d"], Act.FILE ["d", "a"] none] = [] ++ t) := by
  have heval : walk false false true [] [] []
      ⟨some "d", none, false, [⟨some "a", some "c", none, none⟩], []⟩ [] ⟨[], []⟩ [] =
      .ok (⟨[], []⟩, [Act.DIR ["d"], Act.FILE ["d", "a"] none]) := by
    rw [walk_eq]
    simp [should_include, walkFiles, processEntry, cond_pass, render, walkChildren_nil]
  exact ⟨heval, walk_dry_run_pure _ _ _ _ _ _ _ _ _ _ _ heval⟩

/-! ### Claim C10: dry-run never validates `from` references -/

/-- C10: a dry run never raises the missing-template error; an included,
condition-passing file entry with a `from` source has its file action
recorded with the resolved source path regardless of the filesystem (in
particular when the source is absent); and in real mode the same entry with
an absent source and destination raises the missing-template error. -/
theorem dry_run_no_from_validation :
    (∀ force add vars_ troot enabled node cwd (fs : FS) (created : List Act) e,
      walk force add true vars_ troot enabled node cwd fs created = .error e →
      ∀ p, e ≠ .missingTemplate p)
    ∧ (∀ force add (vars_ : VarMap) troot dir_path f (fs : FS) (created : List Act) nm s,
        f.name = some nm → cond_pass f.only_if vars_ = .ok true → f.«from» = some s →
        processEntry force add true vars_ troot dir_path f fs created =
          .ok (fs, created ++
            [Act.FILE (dir_path ++ [render nm vars_]) (some (troot ++ [s]))]))
    ∧ (∀ force add (vars_ : VarMap) troot dir_path f (fs : FS) (created : List Act) nm s,
        f.name = some nm → cond_pass f.only_if vars_ = .ok true → f.content = none →
        f.«from» = some s → fs.exists (dir_path ++ [render nm vars_]) = false →
        fs.exists (troot ++ [s]) = false →
        processEntry force add false vars_ troot dir_path f fs created =
          .error (.missingTemplate (troot ++ [s]))) := by
  refine ⟨?_, ?_, ?_⟩
  · intro force add vars_ troot enabled node cwd fs created e h p
    exact ((walk_dry_aux force add vars_ troot enabled (sizeOf node)).1 node (le_refl _)
      cwd fs created).2 e h p
  · intro force add vars_ troot dir_path f fs created nm s hname hc hfrom
    simp [processEntry, hname, hc, hfrom]
  · intro force add vars_ troot dir_path f fs created nm s hname hc hcontent hfrom hdst hsrc
    simp [processEntry, hname, hc, hcontent, hfrom, hdst, hsrc]

/-- Witness for C10 at a concrete entry whose source file is absent. -/
theorem dry_run_no_from_validation_witness :
    processEntry false false true [] ["t"] ["d"] ⟨some "a", none, some "src", none⟩
        ⟨[], []⟩ [] = .ok (⟨[], []⟩, [Act.FILE ["d", "a"] (some ["t", "src"])])
    ∧ processEntry false false false [] ["t"] ["d"] ⟨some "a", none, some "src", none⟩
        ⟨[], []⟩ [] = .error (.missingTemplate ["t", "src"]) := by
  constructor
  · have := dry_run_no_from_validation.2.1 false false [] ["t"] ["d"]
      ⟨some "a", none, some "src", none⟩ ⟨[], []⟩ [] "a" "src" rfl rfl rfl
    simpa [render] using this
  · have := dry_run_no_from_validation.2.2 false false [] ["t"] ["d"]
      ⟨some "a", none, some "src", none⟩ ⟨[], []⟩ [] "a" "src" rfl rfl rfl rfl
      (by decide) (by decide)
    simpa [render] using this

/-! ### Claim C1: the conflict matrix -/

theorem FS.fileExists_of_getFile (fs : FS) (p : FsPath) (text : String)
    (h : fs.getFile p = some text) : fs.fileExists p = true := by
  unfold FS.getFile at h
  cases hf : fs.files.find? (fun e => e.1 == p) with
  | none => rw [hf] at h; simp at h
  | some e =>
    have hmem := List.mem_of_find?_eq_some hf
    have hpred := List.find?_some hf
    unfold FS.fileExists
    rw [List.any_eq_true]
    exact ⟨e, hmem, hpred⟩

/-- C1 counterexample: with `force = true` and an existing destination, a
file entry with neither `content` nor `from` is not overwritten — `touch`
leaves the previous content `"old"` in place, where an unconditional
overwrite would materialize the entry's content (an empty file). -/
theorem conflict_force_counterexample :
    walk true false false [] [] []
        ⟨some "d", none, false, [⟨some "a", none, none, none⟩], []⟩
        [] ⟨[[], ["d"]], [(["d", "a"], "old")]⟩ [] =
      .ok (⟨[[], ["d"]], [(["d", "a"], "old")]⟩, [])
    ∧ FS.getFile ⟨[[], ["d"]], [(["d", "a"], "old")]⟩ ["d", "a"] = some "old"
    ∧ "old" ≠ "" := by
  refine ⟨?_, by decide, by decide⟩
  rw [walk_eq]
  simp [should_include, walkFiles, processEntry, cond_pass, render, walkChildren_nil,
    FS.exists, FS.fileExists, FS.mkdirP, FS.touch, List.inits]

/-- C1 (amended): in real mode, for an included, condition-passing file
entry: with force=false, add=false an existing destination raises the
conflict error, which aborts the file loop; with force=false, add=true an
existing destination is skipped with no change and no error; when the
destination does not exist or force=true, an entry with inline content is
written with its rendered content, an entry with a `from` source is written
with the rendered source text provided the source exists, and an entry with
neither merely ensures existence via `touch` (leaving an existing file's
content intact, so force does not truncate it). -/
theorem conflict_policy_matrix :
    ∀ (force add : Bool) (vars_ : VarMap) (troot dir_path : FsPath) (f : FileEntry)
      (fs : FS) (created : List Act) (nm : String),
      f.name = some nm → cond_pass f.only_if vars_ = .ok true →
      ((fs.exists (dir_path ++ [render nm vars_]) = true → force = false → add = false →
          processEntry force add false vars_ troot dir_path f fs created =
            .error (.conflict (dir_path ++ [render nm vars_]))
          ∧ ∀ rest, walkFiles force add false vars_ troot dir_path (f :: rest) fs created
              = .error (.conflict (dir_path ++ [render nm vars_])))
      ∧ (fs.exists (dir_path ++ [render nm vars_]) = true → force = false → add = true →
          processEntry force add false vars_ troot dir_path f fs created =
            .ok (fs, created))
      ∧ (fs.exists (dir_path ++ [render nm vars_]) = false ∨ force = true →
          (∀ c, f.content = some c →
            processEntry force add false vars_ troot dir_path f fs created =
              .ok ((fs.mkdirP (dir_path ++ [render nm vars_]).dropLast).writeFile
                (dir_path ++ [render nm vars_]) (render c vars_), created))
          ∧ (∀ s text, f.content = none → f.«from» = some s →
              fs.getFile (troot ++ [s]) = some text →
              processEntry force add false vars_ troot dir_path f fs created =
                .ok ((fs.mkdirP (dir_path ++ [render nm vars_]).dropLast).writeFile
                  (dir_path ++ [render nm vars_]) (render text vars_), created))
          ∧ (f.content = none → f.«from» = none →
              processEntry force add false vars_ troot dir_path f fs created =
                .ok ((fs.mkdirP (dir_path ++ [render nm vars_]).dropLast).touch
                  (dir_path ++ [render nm vars_]), created)))) := by
  intro force add vars_ troot dir_path f fs created nm hname hc
  refine ⟨?_, ?_, ?_⟩
  · intro hex hforce hadd
    subst hforce; subst hadd
    have hpe : processEntry false false false vars_ troot dir_path f fs created =
        .error (.conflict (dir_path ++ [render nm vars_])) := by
      simp [processEntry, hname, hc, hex]
    refine ⟨hpe, ?_⟩
    intro rest
    simp only [walkFiles, hpe]
  · intro hex hforce hadd
    subst hforce; subst hadd
    simp [processEntry, hname, hc, hex]
  · intro hpre
    have hg1 : (fs.exists (dir_path ++ [render nm vars_]) && add && !force) = false := by
      rcases hpre with h | h <;> simp [h]
    have hg2 : (fs.exists (dir_path ++ [render nm vars_]) && !force) = false := by
      rcases hpre with h | h <;> simp [h]
    refine ⟨?_, ?_, ?_⟩
    · intro c hcontent
      simp [processEntry, hname, hc, hg1, hg2, hcontent]
    · intro s text hcontent hfrom hget
      have hfe : fs.fileExists (troot ++ [s]) = true :=
        FS.fileExists_of_getFile fs _ text hget
      have hex2 : fs.exists (troot ++ [s]) = true := by
        simp [FS.exists, hfe]
      simp [processEntry, hname, hc, hg1, hg2, hcontent, hfrom, hex2, copy_rendered, hget]
    · intro hcontent hfrom
      simp [processEntry, hname, hc, hg1, hg2, hcontent, hfrom]

/-- Witness for the amended C1 at concrete entries: the error row, the
skip row, the forced overwrite of a content entry, and the fresh write. -/
theorem conflict_policy_matrix_witness :
    processEntry false false false [] [] ["d"] ⟨some "a", some "c", none, none⟩
        ⟨[[], ["d"]], [(["d", "a"], "x")]⟩ [] = .error (.conflict ["d", "a"])
    ∧ processEntry false true false [] [] ["d"] ⟨some "a", some "c", none, none⟩
        ⟨[[], ["d"]], [(["d", "a"], "x")]⟩ [] = .ok (⟨[[], ["d"]], [(["d", "a"], "x")]⟩, [])
    ∧ processEntry true false false [] [] ["d"] ⟨some "a", some "c", none, none⟩
        ⟨[[], ["d"]], [(["d", "a"], "x")]⟩ [] = .ok (⟨[[], ["d"]], [(["d", "a"], "c")]⟩, [])
    ∧ processEntry false false false [] [] ["d"] ⟨some "a", some "c", none, none⟩
        ⟨[[], ["d"]], []⟩ [] = .ok (⟨[[], ["d"]], [(["d", "a"], "c")]⟩, []) := by
  refine ⟨?_, ?_, ?_, ?_⟩
  · have := ((conflict_policy_matrix false false [] [] ["d"] ⟨some "a", some "c", none, none⟩
      ⟨[[], ["d"]], [(["d", "a"], "x")]⟩ [] "a" rfl rfl).1 (by decide) rfl rfl).1
    simpa [render] using this
  · have := (conflict_policy_matrix false true [] [] ["d"] ⟨some "a", some "c", none, none⟩
      ⟨[[], ["d"]], [(["d", "a"], "x")]⟩ [] "a" rfl rfl).2.1 (by decide) rfl rfl
    simpa [render] using this
  · have := ((conflict_policy_matrix true false [] [] ["d"] ⟨some "a", some "c", none, none⟩
      ⟨[[], ["d"]], [(["d", "a"], "x")]⟩ [] "a" rfl rfl).2.2 (Or.inr rfl)).1 "c" rfl
    simpa [render, FS.mkdirP, FS.writeFile, List.inits] using this
  · have := ((conflict_policy_matrix false false [] [] ["d"] ⟨some "a", some "c", none, none⟩
      ⟨[[], ["d"]], []⟩ [] "a" rfl rfl).2.2 (Or.inl (by decide))).1 "c" rfl
    simpa [render, FS.mkdirP, FS.writeFile, List.inits] using this

/-! ### Helper lemmas: the filesystem extension order -/

theorem fsLE_refl (a : FS) : fsLE a a := ⟨fun _ h => h, fun _ h => h⟩

theorem fsLE_trans {a b c : FS} (h1 : fsLE a b) (h2 : fsLE b c) : fsLE a c :=
  ⟨fun p hp => h2.1 p (h1.1 p hp), fun p hp => h2.2 p (h1.2 p hp)⟩

theorem fsLE_mkdirP (fs : FS) (p : FsPath) : fsLE fs (fs.mkdirP p) := by
  refine ⟨fun q hq => ?_, fun _ hq => hq⟩
  unfold FS.mkdirP
  exact List.mem_append_left _ hq

theorem fileExists_writeFile (fs : FS) (p : FsPath) (c : String) (q : FsPath)
    (hq : fs.fileExists q = true) : (fs.writeFile p c).fileExists q = true := by
  unfold FS.fileExists at hq ⊢
  rw [List.any_eq_true] at hq ⊢
  obtain ⟨e, hmem, hpred⟩ := hq
  by_cases hpq : (p == q) = true
  · exact ⟨(p, c), by simp [FS.writeFile], hpq⟩
  · refine ⟨e, ?_, hpred⟩
    have hep : (e.1 == p) = false := by
      rw [beq_iff_eq] at hpred
      rw [beq_eq_false_iff_ne]
      intro hcls
      rw [hcls] at hpred
      rw [hpred] at hpq
      simp at hpq
    simp only [FS.writeFile, List.mem_cons]
    right
    rw [List.mem_filter]
    exact ⟨hmem, by simp [hep]⟩

theorem fsLE_writeFile (fs : FS) (p : FsPath) (c : String) : fsLE fs (fs.writeFile p c) :=
  ⟨fun _ hq => hq, fun q hq => fileExists_writeFile fs p c q hq⟩

theorem fsLE_touch (fs : FS) (p : FsPath) : fsLE fs (fs.touch p) := by
  unfold FS.touch
  by_cases h : fs.exists p = true
  · rw [if_pos h]; exact fsLE_refl fs
  · rw [if_neg h]; exact fsLE_writeFile fs p ""

theorem exists_mono {a b : FS} (h : fsLE a b) (p : FsPath) (hp : a.exists p = true) :
    b.exists p = true := by
  unfold FS.exists at hp ⊢
  rw [Bool.or_eq_true] at hp ⊢
  rcases hp with hf | hd
  · exact Or.inl (h.2 p hf)
  · exact Or.inr (by rw [List.elem_iff] at hd ⊢; exact h.1 p hd)

theorem fileExists_writeFile_self (fs : FS) (p : FsPath) (c : String) :
    (fs.writeFile p c).fileExists p = true := by
  simp [FS.writeFile, FS.fileExists]

theorem exists_writeFile_self (fs : FS) (p : FsPath) (c : String) :
    (fs.writeFile p c).exists p = true := by
  simp [FS.exists, fileExists_writeFile_self]

theorem exists_touch_self (fs : FS) (p : FsPath) : (fs.touch p).exists p = true := by
  unfold FS.touch
  by_cases h : fs.exists p = true
  · rw [if_pos h]; exact h
  · rw [if_neg h]; exact exists_writeFile_self fs p ""

theorem exists_mkdirP {fs : FS} {p : FsPath} (q : FsPath) (hq : fs.exists q = true) :
    (fs.mkdirP p).exists q = true := exists_mono (fsLE_mkdirP fs p) q hq

theorem mem_dirs_mkdirP (fs : FS) (p : FsPath) : ∀ q ∈ p.inits, q ∈ (fs.mkdirP p).dirs := by
  intro q hq
  unfold FS.mkdirP
  rw [List.mem_append]
  by_cases hd : q ∈ fs.dirs
  · exact Or.inl hd
  · refine Or.inr (List.mem_filter.2 ⟨hq, ?_⟩)
    simp [List.elem_iff, hd]

theorem mkdirP_eq_self (fs : FS) (p : FsPath) (h : ∀ q ∈ p.inits, q ∈ fs.dirs) :
    fs.mkdirP p = fs := by
  unfold FS.mkdirP
  have : p.inits.filter (fun q => !(fs.dirs.contains q)) = [] := by
    rw [List.filter_eq_nil_iff]
    intro q hq
    simp [List.elem_iff, h q hq]
  rw [this, List.append_nil]

/-! ### Helper lemmas: real-mode monotonicity -/

theorem processEntry_mono (force add dry : Bool) (vars_ : VarMap) (troot dir_path : FsPath)
    (f : FileEntry) (fs : FS) (created : List Act) (r : FS × List Act)
    (h : processEntry force add dry vars_ troot dir_path f fs created = .ok r) :
    fsLE fs r.1 := by
  cases hname : f.name with
  | none => simp [processEntry, hname] at h
  | some nm =>
    cases hc : cond_pass f.only_if vars_ with
    | error e => simp [processEntry, hname, hc] at h
    | ok b =>
      cases b with
      | false =>
        simp only [processEntry, hname, hc] at h
        injection h with h2
        subst h2
        exact fsLE_refl fs
      | true =>
        cases dry with
        | true =>
          simp only [processEntry, hname, hc, if_pos rfl] at h
          injection h with h2
          subst h2
          exact fsLE_refl fs
        | false =>
          simp only [processEntry, hname, hc] at h
          rw [if_neg (by simp)] at h
          by_cases hg1 : (fs.exists (dir_path ++ [render nm vars_]) && add && !force) = true
          · rw [if_pos hg1] at h
            injection h with h2
            subst h2
            exact fsLE_refl fs
          · rw [if_neg hg1] at h
            by_cases hg2 : (fs.exists (dir_path ++ [render nm vars_]) && !force) = true
            · rw [if_pos hg2] at h; simp at h
            · rw [if_neg hg2] at h
              cases hcontent : f.content with
              | some c =>
                simp only [hcontent] at h
                injection h with h2
                subst h2
                exact fsLE_trans (fsLE_mkdirP fs _) (fsLE_writeFile _ _ _)
              | none =>
                simp only [hcontent] at h
                cases hfrom : f.«from» with
                | some s =>
                  simp only [hfrom] at h
                  by_cases hex2 : fs.exists (troot ++ [s]) = true
                  · rw [if_pos hex2] at h
                    cases hget : fs.getFile (troot ++ [s]) with
                    | some text =>
                      simp only [copy_rendered, hget] at h
                      injection h with h2
                      subst h2
                      exact fsLE_trans (fsLE_mkdirP fs _) (fsLE_writeFile _ _ _)
                    | none => simp only [copy_rendered, hget] at h; simp at h
                  · rw [if_neg hex2] at h; simp at h
                | none =>
                  simp only [hfrom] at h
                  injection h with h2
                  subst h2
                  exact fsLE_trans (fsLE_mkdirP fs _) (fsLE_touch _ _)

theorem walkFiles_mono (force add dry : Bool) (vars_ : VarMap) (troot dir_path : FsPath) :
    ∀ files (fs : FS) (created : List Act) (r : FS × List Act),
      walkFiles force add dry vars_ troot dir_path files fs created = .ok r →
      fsLE fs r.1 := by
  intro files
  induction files with
  | nil =>
    intro fs created r h
    simp only [walkFiles] at h
    injection h with h2
    subst h2
    exact fsLE_refl fs
  | cons f rest ih =>
    intro fs created r h
    simp only [walkFiles] at h
    cases hpe : processEntry force add dry vars_ troot dir_path f fs created with
    | error e => rw [hpe] at h; simp at h
    | ok p =>
      rw [hpe] at h
      exact fsLE_trans (processEntry_mono force add dry vars_ troot dir_path f fs created
        p hpe) (ih p.1 p.2 r h)

theorem walk_mono_aux (force add dry : Bool) (vars_ : VarMap) (troot : FsPath)
    (enabled : List String) :
    ∀ N : Nat,
      (∀ node, sizeOf node ≤ N → ∀ cwd (fs : FS) (created : List Act) (r : FS × List Act),
        walk force add dry vars_ troot enabled node cwd fs created = .ok r → fsLE fs r.1)
      ∧ (∀ children : List Node, sizeOf children ≤ N →
          ∀ dir_path (fs : FS) (created : List Act) (r : FS × List Act),
        walkChildren force add dry vars_ troot enabled children dir_path fs created = .ok r
          → fsLE fs r.1) := by
  intro N
  induction N with
  | zero =>
    constructor
    · intro node h
      exfalso
      cases node
      simp only [Node.mk.sizeOf_spec] at h
      omega
    · intro children h
      exfalso
      cases children with
      | nil => simp only [List.nil.sizeOf_spec] at h; omega
      | cons c cs => simp only [List.cons.sizeOf_spec] at h; omega
  | succ N ih =>
    constructor
    · intro node hN cwd fs created r h
      have hch : sizeOf node.children ≤ N := by
        cases node
        simp only [Node.mk.sizeOf_spec] at hN
        simp only []
        omega
      cases hdir : node.dir with
      | none => rw [walk_eq, hdir] at h; simp at h
      | some nm =>
        rw [walk_eq, hdir] at h
        cases hinc : should_include node enabled with
        | false =>
          simp only [hinc, Bool.false_eq_true, if_false] at h
          injection h with h2
          subst h2
          exact fsLE_refl fs
        | true =>
          simp only [hinc, if_true] at h
          cases hwf : walkFiles force add dry vars_ troot (cwd ++ [render nm vars_])
              node.files
              (if dry then (fs, created ++ [Act.DIR (cwd ++ [render nm vars_])])
               else (fs.mkdirP (cwd ++ [render nm vars_]), created)).1
              (if dry then (fs, created ++ [Act.DIR (cwd ++ [render nm vars_])])
               else (fs.mkdirP (cwd ++ [render nm vars_]), created)).2 with
          | error e => rw [hwf] at h; simp at h
          | ok p =>
            rw [hwf] at h
            have hst : fsLE fs
                (if dry then (fs, created ++ [Act.DIR (cwd ++ [render nm vars_])])
                 else (fs.mkdirP (cwd ++ [render nm vars_]), created)).1 := by
              cases dry with
              | true => exact fsLE_refl fs
              | false => exact fsLE_mkdirP fs _
            have h1 := walkFiles_mono force add dry vars_ troot _ node.files _ _ p hwf
            have h2 := (ih.2 node.children hch) _ p.1 p.2 r h
            exact fsLE_trans hst (fsLE_trans h1 h2)
    · intro children hN dir_path fs created r h
      cases children with
      | nil =>
        rw [walkChildren_nil] at h
        injection h with h2
        subst h2
        exact fsLE_refl fs
      | cons c rest =>
        have hc : sizeOf c ≤ N := by
          simp only [List.cons.sizeOf_spec] at hN
          omega
        have hrest : sizeOf rest ≤ N := by
          simp only [List.cons.sizeOf_spec] at hN
          have : 0 < sizeOf c := by cases c; simp only [Node.mk.sizeOf_spec]; omega
          omega
        cases hinc : should_include c enabled with
        | false =>
          rw [walkChildren_cons, if_neg (by simp [hinc])] at h
          exact (ih.2 rest hrest) dir_path fs created r h
        | true =>
          rw [walkChildren_cons, if_pos hinc] at h
          cases hw : walk force add dry vars_ troot enabled c dir_path fs created with
          | error e => rw [hw] at h; simp at h
          | ok p =>
            rw [hw] at h
            exact fsLE_trans ((ih.1 c hc) dir_path fs created p hw)
              ((ih.2 rest hrest) dir_path p.1 p.2 r h)

/-! ### Helper lemmas: add-mode idempotence -/

theorem processEntry_idem (vars_ : VarMap) (troot dir_path : FsPath) (f : FileEntry)
    (fs : FS) (created : List Act) (r : FS × List Act)
    (h : processEntry false true false vars_ troot dir_path f fs created = .ok r) :
    ∀ (g : FS) (cr' : List Act), fsLE r.1 g →
      processEntry false true false vars_ troot dir_path f g cr' = .ok (g, cr') := by
  intro g cr' hle
  cases hname : f.name with
  | none => simp [processEntry, hname] at h
  | some nm =>
    cases hc : cond_pass f.only_if vars_ with
    | error e => simp [processEntry, hname, hc] at h
    | ok b =>
      cases b with
      | false => simp only [processEntry, hname, hc]
      | true =>
        have hmono := processEntry_mono false true false vars_ troot dir_path f fs created
          r h
        simp only [processEntry, hname, hc] at h
        rw [if_neg (by simp)] at h
        -- establish that the destination exists in the final state r.1
        have hdst : r.1.exists (dir_path ++ [render nm vars_]) = true := by
          by_cases hg1 : (fs.exists (dir_path ++ [render nm vars_]) && true && !false) = true
          · rw [if_pos hg1] at h
            injection h with h2
            subst h2
            exact exists_mono (fsLE_refl fs) _ (by simpa using hg1)
          · rw [if_neg hg1] at h
            rw [if_neg (by simpa using hg1)] at h
            cases hcontent : f.content with
            | some c =>
              simp only [hcontent] at h
              injection h with h2
              subst h2
              exact exists_writeFile_self _ _ _
            | none =>
              simp only [hcontent] at h
              cases hfrom : f.«from» with
              | some s =>
                simp only [hfrom] at h
                by_cases hex2 : fs.exists (troot ++ [s]) = true
                · rw [if_pos hex2] at h
                  cases hget : fs.getFile (troot ++ [s]) with
                  | some text =>
                    simp only [copy_rendered, hget] at h
                    injection h with h2
                    subst h2
                    exact exists_writeFile_self _ _ _
                  | none => simp only [copy_rendered, hget] at h; simp at h
                · rw [if_neg hex2] at h; simp at h
              | none =>
                simp only [hfrom] at h
                injection h with h2
                subst h2
                exact exists_touch_self _ _
        have hgdst : g.exists (dir_path ++ [render nm vars_]) = true :=
          exists_mono hle _ hdst
        simp only [processEntry, hname, hc]
        rw [if_neg (by simp), if_pos (by simp [hgdst])]

theorem walkFiles_idem (vars_ : VarMap) (troot dir_path : FsPath) :
    ∀ files (fs : FS) (created : List Act) (r : FS × List Act),
      walkFiles false true false vars_ troot dir_path files fs created = .ok r →
      ∀ (g : FS) (cr' : List Act), fsLE r.1 g →
        walkFiles false true false vars_ troot dir_path files g cr' = .ok (g, cr') := by
  intro files
  induction files with
  | nil => intro fs created r h g cr' hle; simp only [walkFiles]
  | cons f rest ih =>
    intro fs created r h g cr' hle
    simp only [walkFiles] at h ⊢
    cases hpe : processEntry false true false vars_ troot dir_path f fs created with
    | error e => rw [hpe] at h; simp at h
    | ok p =>
      rw [hpe] at h
      have hp_r : fsLE p.1 r.1 := walkFiles_mono false true false vars_ troot dir_path
        rest p.1 p.2 r h
      have hstep := processEntry_idem vars_ troot dir_path f fs created p hpe g cr'
        (fsLE_trans hp_r hle)
      rw [hstep]
      exact ih p.1 p.2 r h g cr' hle

theorem walk_idem_aux (vars_ : VarMap) (troot : FsPath) (enabled : List String) :
    ∀ N : Nat,
      (∀ node, sizeOf node ≤ N → ∀ cwd (fs : FS) (created : List Act) (r : FS × List Act),
        walk false true false vars_ troot enabled node cwd fs created = .ok r →
        ∀ (g : FS) (cr' : List Act), fsLE r.1 g →
          walk false true false vars_ troot enabled node cwd g cr' = .ok (g, cr'))
      ∧ (∀ children : List Node, sizeOf children ≤ N →
          ∀ dir_path (fs : FS) (created : List Act) (r : FS × List Act),
        walkChildren false true false vars_ troot enabled children dir_path fs created =
          .ok r →
        ∀ (g : FS) (cr' : List Act), fsLE r.1 g →
          walkChildren false true false vars_ troot enabled children dir_path g cr' =
            .ok (g, cr')) := by
  intro N
  induction N with
  | zero =>
    constructor
    · intro node h
      exfalso
      cases node
      simp only [Node.mk.sizeOf_spec] at h
      omega
    · intro children h
      exfalso
      cases children with
      | nil => simp only [List.nil.sizeOf_spec] at h; omega
      | cons c cs => simp only [List.cons.sizeOf_spec] at h; omega
  | succ N ih =>
    constructor
    · intro node hN cwd fs created r h g cr' hle
      have hch : sizeOf node.children ≤ N := by
        cases node
        simp only [Node.mk.sizeOf_spec] at hN
        simp only []
        omega
      cases hdir : node.dir with
      | none => rw [walk_eq, hdir] at h; simp at h
      | some nm =>
        rw [walk_eq, hdir] at h
        rw [walk_eq, hdir]
        cases hinc : should_include node enabled with
        | false =>
          simp only [hinc, Bool.false_eq_true, if_false] at h ⊢
        | true =>
          simp only [hinc, if_true, Bool.false_eq_true, if_false] at h ⊢
          cases hwf : walkFiles false true false vars_ troot (cwd ++ [render nm vars_])
              node.files (fs.mkdirP (cwd ++ [render nm vars_])) created with
          | error e => rw [hwf] at h; simp at h
          | ok p =>
            rw [hwf] at h
            have hfs_p : fsLE (fs.mkdirP (cwd ++ [render nm vars_])) p.1 :=
              walkFiles_mono false true false vars_ troot _ node.files _ _ p hwf
            have hp_r : fsLE p.1 r.1 :=
              (walk_mono_aux false true false vars_ troot enabled (sizeOf node.children)).2
                node.children (le_refl _) _ p.1 p.2 r h
            have hdirs : ∀ q ∈ (cwd ++ [render nm vars_]).inits, q ∈ g.dirs := by
              intro q hq
              exact hle.1 q (hp_r.1 q (hfs_p.1 q
                (mem_dirs_mkdirP fs (cwd ++ [render nm vars_]) q hq)))
            rw [mkdirP_eq_self g _ hdirs]
            have hwf2 := walkFiles_idem vars_ troot _ node.files _ created p hwf g cr'
              (fsLE_trans hp_r hle)
            rw [hwf2]
            exact (ih.2 node.children hch) _ p.1 p.2 r h g cr' hle
    · intro children hN dir_path fs created r h g cr' hle
      cases children with
      | nil =>
        rw [walkChildren_nil]
      | cons c rest =>
        have hc : sizeOf c ≤ N := by
          simp only [List.cons.sizeOf_spec] at hN
          omega
        have hrest : sizeOf rest ≤ N := by
          simp only [List.cons.sizeOf_spec] at hN
          have : 0 < sizeOf c := by cases c; simp only [Node.mk.sizeOf_spec]; omega
          omega
        cases hinc : should_include c enabled with
        | false =>
          rw [walkChildren_cons, if_neg (by simp [hinc])] at h ⊢
          exact (ih.2 rest hrest) dir_path fs created r h g cr' hle
        | true =>
          rw [walkChildren_cons, if_pos hinc] at h ⊢
          cases hw : walk false true false vars_ troot enabled c dir_path fs created with
          | error e => rw [hw] at h; simp at h
          | ok p =>
            rw [hw] at h
            have hp_r : fsLE p.1 r.1 :=
              (walk_mono_aux false true false vars_ troot enabled (sizeOf rest)).2
                rest (le_refl _) dir_path p.1 p.2 r h
            have hw2 := (ih.1 c hc) dir_path fs created p hw g cr'
              (fsLE_trans hp_r hle)
            rw [hw2]
            exact (ih.2 rest hrest) dir_path p.1 p.2 r h g cr' hle

/-! ### Claim C4: idempotence of add-mode -/

/-- C4: running `walk` in real mode with add=true and force=false twice in
succession with the same specification, variable mapping, enabled-id set and
destination leaves the filesystem unchanged after the second run, raises no
error, and returns the action accumulator untouched. -/
theorem walk_add_mode_idempotent (vars_ : VarMap) (troot : FsPath) (enabled : List String)
    (node : Node) (cwd : FsPath) (fs fs1 : FS) (created created1 : List Act)
    (h : walk false true false vars_ troot enabled node cwd fs created =
      .ok (fs1, created1)) :
    ∀ cr', walk false true false vars_ troot enabled node cwd fs1 cr' = .ok (fs1, cr') :=
  fun cr' => (walk_idem_aux vars_ troot enabled (sizeOf node)).1 node (le_refl _) cwd fs
    created (fs1, created1) h fs1 cr' (fsLE_refl fs1)

/-- Witness for C4: a concrete first run, and the second run over its result
changing nothing. -/
theorem walk_add_mode_idempotent_witness :
    walk false true false [] [] []
        ⟨some "d", none, false, [⟨some "r", some "hi", none, none⟩], []⟩
        [] ⟨[[], ["d"]], [(["d", "r"], "hi")]⟩ [] =
      .ok (⟨[[], ["d"]], [(["d", "r"], "hi")]⟩, []) := by
  have h1 : walk false true false [] [] []
      ⟨some "d", none, false, [⟨some "r", some "hi", none, none⟩], []⟩ [] ⟨[], []⟩ [] =
      .ok (⟨[[], ["d"]], [(["d", "r"], "hi")]⟩, []) := by
    rw [walk_eq]
    simp [should_include, walkFiles, processEntry, cond_pass, render, walkChildren_nil,
      FS.exists, FS.fileExists, FS.mkdirP, FS.writeFile, List.inits]
  exact walk_add_mode_idempotent [] [] [] _ [] ⟨[], []⟩ ⟨[[], ["d"]], [(["d", "r"], "hi")]⟩
    [] [] h1 []

/-! ### Claim C7: `render` -/

theorem listReplace_nil (pat rep : List Char) : listReplace pat rep [] = [] := by
  rw [listReplace]

theorem listReplace_cons (pat rep : List Char) (c : Char) (rest : List Char) :
    listReplace pat rep (c :: rest) =
      if pat ≠ [] ∧ pat.isPrefixOf (c :: rest) = true then
        rep ++ listReplace pat rep (rest.drop (pat.length - 1))
      else c :: listReplace pat rep rest := by
  rw [listReplace]

theorem isPrefixOf_eq_true_iff (l1 l2 : List Char) : l1.isPrefixOf l2 = true ↔ l1 <+: l2 :=
  List.isPrefixOf_iff_prefix

theorem listReplace_of_no_occurrence (pat rep : List Char) :
    ∀ s, ¬ pat <:+: s → listReplace pat rep s = s := by
  intro s
  induction s with
  | nil => intro h; rw [listReplace_nil]
  | cons c rest ih =>
    intro h
    rw [listReplace_cons]
    have h1 : ¬(pat ≠ [] ∧ pat.isPrefixOf (c :: rest) = true) := by
      rintro ⟨hne, hpre⟩
      exact h (List.IsPrefix.isInfix ((isPrefixOf_eq_true_iff pat _).mp hpre))
    rw [if_neg h1, ih (fun hi => h (List.infix_cons hi))]

theorem joinWith_cons_of_ne (sep : List Char) (x : List Char) (xs : List (List Char))
    (h : xs ≠ []) : joinWith sep (x :: xs) = x ++ sep ++ joinWith sep xs := by
  cases xs with
  | nil => exact absurd rfl h
  | cons y t => rw [joinWith]

theorem joinWith_head_cons (sep : List Char) (c : Char) (p0 : List Char)
    (ps : List (List Char)) :
    joinWith sep ((c :: p0) :: ps) = c :: joinWith sep (p0 :: ps) := by
  cases ps with
  | nil => rfl
  | cons q t => simp [joinWith, List.cons_append]

theorem head_prefix_joinWith (sep : List Char) (p0 : List Char) (ps : List (List Char)) :
    p0 <+: joinWith sep (p0 :: ps) := by
  cases ps with
  | nil => exact List.prefix_refl p0
  | cons q t =>
    refine ⟨sep ++ joinWith sep (q :: t), ?_⟩
    simp [joinWith, List.append_assoc]

theorem listReplace_decomposition (pat rep : List Char) (hp : pat ≠ []) :
    ∀ s, ∃ pieces : List (List Char), pieces ≠ [] ∧
      joinWith pat pieces = s ∧
      listReplace pat rep s = joinWith rep pieces ∧
      ∀ piece ∈ pieces, ¬ pat <:+: piece := by
  suffices H : ∀ n s, s.length ≤ n → ∃ pieces : List (List Char), pieces ≠ [] ∧
      joinWith pat pieces = s ∧
      listReplace pat rep s = joinWith rep pieces ∧
      ∀ piece ∈ pieces, ¬ pat <:+: piece by
    exact fun s => H s.length s (le_refl _)
  intro n
  induction n with
  | zero =>
    intro s hs
    have hnil : s = [] := List.length_eq_zero.mp (Nat.le_zero.mp hs)
    subst hnil
    refine ⟨[[]], by simp, rfl, by rw [listReplace_nil]; rfl, ?_⟩
    intro piece hmem
    simp at hmem
    subst hmem
    intro hinf
    exact hp (List.eq_nil_of_infix_nil hinf)
  | succ n ihn =>
    intro s hs
    cases s with
    | nil =>
      refine ⟨[[]], by simp, rfl, by rw [listReplace_nil]; rfl, ?_⟩
      intro piece hmem
      simp at hmem
      subst hmem
      intro hinf
      exact hp (List.eq_nil_of_infix_nil hinf)
    | cons c rest =>
      by_cases hpre : pat.isPrefixOf (c :: rest) = true
      · obtain ⟨u, hu⟩ := (isPrefixOf_eq_true_iff pat _).mp hpre
        have ht : rest.drop (pat.length - 1) = u := by
          have hdrop : (pat ++ u).drop pat.length = u := by
            rw [List.drop_left]
          rw [hu] at hdrop
          cases pat with
          | nil => exact absurd rfl hp
          | cons p ps => simpa using hdrop
        have hulen : u.length ≤ n := by
          have := congrArg List.length hu
          simp at this
          have hplen : 1 ≤ pat.length := by
            cases pat with
            | nil => exact absurd rfl hp
            | cons p ps => simp
          simp only [List.length_cons] at hs
          omega
        obtain ⟨pieces, hne, hjoin, hrepl, hfree⟩ := ihn u hulen
        refine ⟨[] :: pieces, by simp, ?_, ?_, ?_⟩
        · rw [joinWith_cons_of_ne pat [] pieces hne, hjoin, List.nil_append, hu]
        · rw [listReplace_cons, if_pos ⟨hp, hpre⟩, ht, hrepl,
            joinWith_cons_of_ne rep [] pieces hne, List.nil_append]
        · intro piece hmem
          rcases List.mem_cons.mp hmem with h0 | hrest2
          · subst h0
            intro hinf
            exact hp (List.eq_nil_of_infix_nil hinf)
          · exact hfree piece hrest2
      · have hrest_len : rest.length ≤ n := by
          simp only [List.length_cons] at hs
          omega
        obtain ⟨pieces, hne, hjoin, hrepl, hfree⟩ := ihn rest hrest_len
        cases pieces with
        | nil => exact absurd rfl hne
        | cons p0 ps =>
          refine ⟨(c :: p0) :: ps, by simp, ?_, ?_, ?_⟩
          · rw [joinWith_head_cons, hjoin]
          · rw [listReplace_cons, if_neg (by rintro ⟨_, hq⟩; exact hpre hq), hrepl,
              joinWith_head_cons]
          · intro piece hmem
            rcases List.mem_cons.mp hmem with h0 | hrest2
            · subst h0
              intro hinf
              rcases List.infix_cons_iff.mp hinf with hpfx | hinf2
              · have hp0 : c :: p0 <+: c :: rest := by
                  have := head_prefix_joinWith pat p0 ps
                  rw [hjoin] at this
                  exact (List.prefix_cons_inj c).mpr this
                exact hpre ((isPrefixOf_eq_true_iff pat _).mpr (List.IsPrefix.trans hpfx hp0))
              · exact hfree p0 (List.mem_cons_self p0 ps) hinf2
            · exact hfree piece (List.mem_cons_of_mem p0 hrest2)

theorem render_verbatim :
    ∀ (vars_ : VarMap) (s : String),
      (∀ kv ∈ vars_, ¬ (placeholder kv.1).data <:+: s.data) → render s vars_ = s := by
  intro vars_
  induction vars_ with
  | nil => intro s _; rfl
  | cons kv rest ih =>
    intro s h
    have hstep : strReplace s (placeholder kv.1) kv.2 = s := by
      obtain ⟨sd⟩ := s
      show (⟨listReplace (placeholder kv.1).data kv.2.data sd⟩ : String) = ⟨sd⟩
      rw [listReplace_of_no_occurrence _ _ sd (h kv (by simp))]
    rw [render, List.foldl_cons, hstep]
    exact ih s (fun kv2 hm => h kv2 (by simp [hm]))

/-- C7: one `str.replace` pass decomposes its input into pattern-free pieces
separated by the occurrences of the pattern and replaces exactly those
separators by the replacement (literal, non-recursive, left-to-right);
`render` applies one such pass per key in the mapping's insertion order; and
a string containing no bound key's placeholder — in particular any
placeholder whose key is absent from the mapping — is returned verbatim with
no error. -/
theorem render_spec :
    (∀ pat rep : List Char, pat ≠ [] → ∀ s, ∃ pieces : List (List Char), pieces ≠ [] ∧
      joinWith pat pieces = s ∧ listReplace pat rep s = joinWith rep pieces ∧
      ∀ piece ∈ pieces, ¬ pat <:+: piece)
    ∧ (∀ (s : String) (kv : String × String) (rest : VarMap),
        render s (kv :: rest) = render (strReplace s (placeholder kv.1) kv.2) rest)
    ∧ (∀ (vars_ : VarMap) (s : String),
        (∀ kv ∈ vars_, ¬ (placeholder kv.1).data <:+: s.data) → render s vars_ = s) :=
  ⟨listReplace_decomposition, fun _ _ _ => rfl, render_verbatim⟩

/-- Witness for C7: a concrete replacement pass and a verbatim rendering. -/
theorem render_spec_witness :
    (∃ pieces : List (List Char), pieces ≠ [] ∧
      joinWith ['a'] pieces = ['x', 'a', 'y'] ∧
      listReplace ['a'] ['b', 'b'] ['x', 'a', 'y'] = joinWith ['b', 'b'] pieces ∧
      ∀ piece ∈ pieces, ¬ ['a'] <:+: piece)
    ∧ render "hello" [] = "hello" := by
  constructor
  · exact render_spec.1 ['a'] ['b', 'b'] (by decide) ['x', 'a', 'y']
  · exact render_spec.2.2 [] "hello" (by simp)

/-! ### Claim C3: dry-run refines the real run -/

theorem walkTrace_eq (force add : Bool) (vars_ : VarMap) (troot : FsPath)
    (enabled : List String) (node : Node) (cwd : FsPath) (fs : FS) :
    walkTrace force add vars_ troot enabled node cwd fs =
      match node.dir with
      | none => .error .missingDir
      | some nm =>
        let dir_path := cwd ++ [render nm vars_]
        if should_include node enabled then
          match walkFilesTrace force add vars_ troot dir_path node.files
              (fs.mkdirP dir_path) with
          | .error e => .error e
          | .ok (fs2, tr2) =>
            match walkChildrenTrace force add vars_ troot enabled node.children dir_path
                fs2 with
            | .error e => .error e
            | .ok (fs3, tr3) => .ok (fs3, Act.DIR dir_path :: (tr2 ++ tr3))
        else .ok (fs, []) := by
  rw [walkTrace]

theorem walkChildrenTrace_nil (force add : Bool) (vars_ : VarMap) (troot : FsPath)
    (enabled : List String) (dir_path : FsPath) (fs : FS) :
    walkChildrenTrace force add vars_ troot enabled [] dir_path fs = .ok (fs, []) := by
  rw [walkChildrenTrace]

theorem walkChildrenTrace_cons (force add : Bool) (vars_ : VarMap) (troot : FsPath)
    (enabled : List String) (c : Node) (rest : List Node) (dir_path : FsPath) (fs : FS) :
    walkChildrenTrace force add vars_ troot enabled (c :: rest) dir_path fs =
      if should_include c enabled then
        match walkTrace force add vars_ troot enabled c dir_path fs with
        | .error e => .error e
        | .ok (fs', tr) =>
          match walkChildrenTrace force add vars_ troot enabled rest dir_path fs' with
          | .error e => .error e
          | .ok (fs'', tr') => .ok (fs'', tr ++ tr')
      else walkChildrenTrace force add vars_ troot enabled rest dir_path fs := by
  rw [walkChildrenTrace]

theorem processEntry_agrees (force add : Bool) (vars_ : VarMap) (troot dir_path : FsPath)
    (f : FileEntry) (fs : FS) (created : List Act) :
    processEntry force add false vars_ troot dir_path f fs created =
      match processEntryTrace force add vars_ troot dir_path f fs with
      | .ok (fs', _) => .ok (fs', created)
      | .error e => .error e := by
  cases hname : f.name with
  | none => simp [processEntry, processEntryTrace, hname]
  | some nm =>
    cases hc : cond_pass f.only_if vars_ with
    | error e => simp [processEntry, processEntryTrace, hname, hc]
    | ok b =>
      cases b with
      | false => simp [processEntry, processEntryTrace, hname, hc]
      | true =>
        simp only [processEntry, processEntryTrace, hname, hc]
        rw [if_neg (by simp)]
        by_cases hg1 : (fs.exists (dir_path ++ [render nm vars_]) && add && !force) = true
        · rw [if_pos hg1, if_pos hg1]
        · rw [if_neg hg1, if_neg hg1]
          by_cases hg2 : (fs.exists (dir_path ++ [render nm vars_]) && !force) = true
          · rw [if_pos hg2, if_pos hg2]
          · rw [if_neg hg2, if_neg hg2]
            cases hcontent : f.content with
            | some c => simp [hcontent]
            | none =>
              simp only [hcontent]
              cases hfrom : f.«from» with
              | none => simp [hfrom]
              | some s =>
                simp only [hfrom]
                by_cases hex2 : fs.exists (troot ++ [s]) = true
                · rw [if_pos hex2, if_pos hex2]
                  cases hget : fs.getFile (troot ++ [s]) with
                  | some text => simp [copy_rendered, hget]
                  | none => simp [copy_rendered, hget]
                · rw [if_neg hex2, if_neg hex2]

theorem walkFiles_agrees (force add : Bool) (vars_ : VarMap) (troot dir_path : FsPath) :
    ∀ files (fs : FS) (created : List Act),
      walkFiles force add false vars_ troot dir_path files fs created =
        match walkFilesTrace force add vars_ troot dir_path files fs with
        | .ok (fs', _) => .ok (fs', created)
        | .error e => .error e := by
  intro files
  induction files with
  | nil => intro fs created; simp [walkFiles, walkFilesTrace]
  | cons f rest ih =>
    intro fs created
    simp only [walkFiles, walkFilesTrace]
    rw [processEntry_agrees]
    cases hpe : processEntryTrace force add vars_ troot dir_path f fs with
    | error e => rfl
    | ok p =>
      obtain ⟨fs1, tr1⟩ := p
      simp only []
      rw [ih fs1 created]
      cases hwf : walkFilesTrace force add vars_ troot dir_path rest fs1 with
      | error e => rfl
      | ok q => obtain ⟨fs2, tr2⟩ := q; rfl

theorem walk_agrees_aux (force add : Bool) (vars_ : VarMap) (troot : FsPath)
    (enabled : List String) :
    ∀ N : Nat,
      (∀ node, sizeOf node ≤ N → ∀ cwd (fs : FS) (created : List Act),
        walk force add false vars_ troot enabled node cwd fs created =
          match walkTrace force add vars_ troot enabled node cwd fs with
          | .ok (fs', _) => .ok (fs', created)
          | .error e => .error e)
      ∧ (∀ children : List Node, sizeOf children ≤ N →
          ∀ dir_path (fs : FS) (created : List Act),
        walkChildren force add false vars_ troot enabled children dir_path fs created =
          match walkChildrenTrace force add vars_ troot enabled children dir_path fs with
          | .ok (fs', _) => .ok (fs', created)
          | .error e => .error e) := by
  intro N
  induction N with
  | zero =>
    constructor
    · intro node h
      exfalso
      cases node
      simp only [Node.mk.sizeOf_spec] at h
      omega
    · intro children h
      exfalso
      cases children with
      | nil => simp only [List.nil.sizeOf_spec] at h; omega
      | cons c cs => simp only [List.cons.sizeOf_spec] at h; omega
  | succ N ih =>
    constructor
    · intro node hN cwd fs created
      have hch : sizeOf node.children ≤ N := by
        cases node
        simp only [Node.mk.sizeOf_spec] at hN
        simp only []
        omega
      rw [walk_eq, walkTrace_eq]
      cases hdir : node.dir with
      | none => rfl
      | some nm =>
        cases hinc : should_include node enabled with
        | false => simp [hinc]
        | true =>
          simp only [hinc, if_true, Bool.false_eq_true, if_false]
          rw [walkFiles_agrees]
          cases hwf : walkFilesTrace force add vars_ troot (cwd ++ [render nm vars_])
              node.files (fs.mkdirP (cwd ++ [render nm vars_])) with
          | error e => rfl
          | ok p =>
            obtain ⟨fs2, tr2⟩ := p
            show walkChildren force add false vars_ troot enabled node.children
                (cwd ++ [render nm vars_]) fs2 created = _
            rw [(ih.2 node.children hch) _ fs2 created]
            cases hwc : walkChildrenTrace force add vars_ troot enabled node.children
                (cwd ++ [render nm vars_]) fs2 with
            | error e => simp [hwc]
            | ok q => obtain ⟨fs3, tr3⟩ := q; simp [hwc]
    · intro children hN dir_path fs created
      cases children with
      | nil => rw [walkChildren_nil, walkChildrenTrace_nil]
      | cons c rest =>
        have hc : sizeOf c ≤ N := by
          simp only [List.cons.sizeOf_spec] at hN
          omega
        have hrest : sizeOf rest ≤ N := by
          simp only [List.cons.sizeOf_spec] at hN
          have : 0 < sizeOf c := by cases c; simp only [Node.mk.sizeOf_spec]; omega
          omega
        rw [walkChildren_cons, walkChildrenTrace_cons]
        cases hinc : should_include c enabled with
        | false =>
          simp only [Bool.false_eq_true, if_false]
          exact (ih.2 rest hrest) dir_path fs created
        | true =>
          simp only [if_true]
          rw [(ih.1 c hc) dir_path fs created]
          cases hw : walkTrace force add vars_ troot enabled c dir_path fs with
          | error e => rfl
          | ok p =>
            obtain ⟨fs1, tr1⟩ := p
            show walkChildren force add false vars_ troot enabled rest dir_path fs1
                created = _
            rw [(ih.2 rest hrest) dir_path fs1 created]
            cases hwc : walkChildrenTrace force add vars_ troot enabled rest dir_path
                fs1 with
            | error e => simp [hwc]
            | ok q => obtain ⟨fs2, tr2⟩ := q; simp [hwc]

theorem processEntryTrace_dry (force add : Bool) (vars_ : VarMap) (troot dir_path : FsPath)
    (f : FileEntry) (fs fs' : FS) (tr : List Act)
    (h : processEntryTrace force add vars_ troot dir_path f fs = .ok (fs', tr)) :
    ∃ suffix, (∀ (fs0 : FS) (cr : List Act),
        processEntry force add true vars_ troot dir_path f fs0 cr = .ok (fs0, cr ++ suffix))
      ∧ List.Sublist tr suffix ∧ (force = true → tr = suffix) := by
  cases hname : f.name with
  | none => simp [processEntryTrace, hname] at h
  | some nm =>
    cases hc : cond_pass f.only_if vars_ with
    | error e => simp [processEntryTrace, hname, hc] at h
    | ok b =>
      cases b with
      | false =>
        simp only [processEntryTrace, hname, hc, Except.ok.injEq, Prod.mk.injEq] at h
        obtain ⟨hfs, htr⟩ := h
        subst hfs
        subst htr
        exact ⟨[], fun fs0 cr => by simp [processEntry, hname, hc],
          List.Sublist.refl [], fun _ => rfl⟩
      | true =>
        have hdry : ∀ (fs0 : FS) (cr : List Act),
            processEntry force add true vars_ troot dir_path f fs0 cr =
              .ok (fs0, cr ++ [Act.FILE (dir_path ++ [render nm vars_])
                (f.«from».map (fun s => troot ++ [s]))]) := by
          intro fs0 cr
          simp [processEntry, hname, hc]
        refine ⟨[Act.FILE (dir_path ++ [render nm vars_])
          (f.«from».map (fun s => troot ++ [s]))], hdry, ?_, ?_⟩
        all_goals
          simp only [processEntryTrace, hname, hc] at h
        · by_cases hg1 : (fs.exists (dir_path ++ [render nm vars_]) && add && !force) = true
          · rw [if_pos hg1] at h
            simp only [Except.ok.injEq, Prod.mk.injEq] at h
            rw [← h.2]
            exact List.nil_sublist _
          · rw [if_neg hg1] at h
            by_cases hg2 : (fs.exists (dir_path ++ [render nm vars_]) && !force) = true
            · rw [if_pos hg2] at h; simp at h
            · rw [if_neg hg2] at h
              cases hcontent : f.content with
              | some c =>
                simp only [hcontent, Except.ok.injEq, Prod.mk.injEq] at h
                rw [← h.2]
              | none =>
                simp only [hcontent] at h
                cases hfrom : f.«from» with
                | none =>
                  simp only [hfrom, Except.ok.injEq, Prod.mk.injEq] at h
                  rw [← h.2]
                | some s =>
                  simp only [hfrom] at h
                  by_cases hex2 : fs.exists (troot ++ [s]) = true
                  · rw [if_pos hex2] at h
                    cases hget : fs.getFile (troot ++ [s]) with
                    | some text =>
                      simp only [copy_rendered, hget, Except.ok.injEq, Prod.mk.injEq] at h
                      rw [← h.2]
                    | none => simp only [copy_rendered, hget] at h; simp at h
                  · rw [if_neg hex2] at h; simp at h
        · intro hforce
          subst hforce
          by_cases hg1 : (fs.exists (dir_path ++ [render nm vars_]) && add && !true) = true
          · simp at hg1
          · rw [if_neg hg1] at h
            rw [if_neg (by simp)] at h
            cases hcontent : f.content with
            | some c =>
              simp only [hcontent, Except.ok.injEq, Prod.mk.injEq] at h
              rw [← h.2]
            | none =>
              simp only [hcontent] at h
              cases hfrom : f.«from» with
              | none =>
                simp only [hfrom, Except.ok.injEq, Prod.mk.injEq] at h
                rw [← h.2]
              | some s =>
                simp only [hfrom] at h
                by_cases hex2 : fs.exists (troot ++ [s]) = true
                · rw [if_pos hex2] at h
                  cases hget : fs.getFile (troot ++ [s]) with
                  | some text =>
                    simp only [copy_rendered, hget, Except.ok.injEq, Prod.mk.injEq] at h
                    rw [← h.2]
                  | none => simp only [copy_rendered, hget] at h; simp at h
                · rw [if_neg hex2] at h; simp at h

theorem walkFilesTrace_dry (force add : Bool) (vars_ : VarMap) (troot dir_path : FsPath) :
    ∀ files (fs fs' : FS) (tr : List Act),
      walkFilesTrace force add vars_ troot dir_path files fs = .ok (fs', tr) →
      ∃ suffix, (∀ (fs0 : FS) (cr : List Act),
          walkFiles force add true vars_ troot dir_path files fs0 cr =
            .ok (fs0, cr ++ suffix))
        ∧ List.Sublist tr suffix ∧ (force = true → tr = suffix) := by
  intro files
  induction files with
  | nil =>
    intro fs fs' tr h
    simp only [walkFilesTrace, Except.ok.injEq, Prod.mk.injEq] at h
    obtain ⟨hfs, htr⟩ := h
    subst htr
    exact ⟨[], fun fs0 cr => by simp [walkFiles], List.Sublist.refl [], fun _ => rfl⟩
  | cons f rest ih =>
    intro fs fs' tr h
    simp only [walkFilesTrace] at h
    cases hpe : processEntryTrace force add vars_ troot dir_path f fs with
    | error e => rw [hpe] at h; simp at h
    | ok p =>
      obtain ⟨fs1, tr1⟩ := p
      rw [hpe] at h
      simp only [] at h
      cases hwt : walkFilesTrace force add vars_ troot dir_path rest fs1 with
      | error e => rw [hwt] at h; simp at h
      | ok q =>
        obtain ⟨fs2, tr2⟩ := q
        rw [hwt] at h
        simp only [Except.ok.injEq, Prod.mk.injEq] at h
        obtain ⟨hfs, htr⟩ := h
        subst htr
        obtain ⟨s1, hd1, hsub1, heq1⟩ :=
          processEntryTrace_dry force add vars_ troot dir_path f fs fs1 tr1 hpe
        obtain ⟨s2, hd2, hsub2, heq2⟩ := ih fs1 fs2 tr2 hwt
        refine ⟨s1 ++ s2, ?_, List.Sublist.append hsub1 hsub2, ?_⟩
        · intro fs0 cr
          simp only [walkFiles]
          rw [hd1 fs0 cr]
          show walkFiles force add true vars_ troot dir_path rest fs0 (cr ++ s1) = _
          rw [hd2 fs0 (cr ++ s1), List.append_assoc]
        · intro hforce
          rw [heq1 hforce, heq2 hforce]

theorem walkTrace_dry_aux (force add : Bool) (vars_ : VarMap) (troot : FsPath)
    (enabled : List String) :
    ∀ N : Nat,
      (∀ node, sizeOf node ≤ N → ∀ cwd (fs fs' : FS) (tr : List Act),
        walkTrace force add vars_ troot enabled node cwd fs = .ok (fs', tr) →
        ∃ suffix, (∀ (fs0 : FS) (cr : List Act),
            walk force add true vars_ troot enabled node cwd fs0 cr =
              .ok (fs0, cr ++ suffix))
          ∧ List.Sublist tr suffix ∧ (force = true → tr = suffix))
      ∧ (∀ children : List Node, sizeOf children ≤ N →
          ∀ dir_path (fs fs' : FS) (tr : List Act),
        walkChildrenTrace force add vars_ troot enabled children dir_path fs =
          .ok (fs', tr) →
        ∃ suffix, (∀ (fs0 : FS) (cr : List Act),
            walkChildren force add true vars_ troot enabled children dir_path fs0 cr =
              .ok (fs0, cr ++ suffix))
          ∧ List.Sublist tr suffix ∧ (force = true → tr = suffix)) := by
  intro N
  induction N with
  | zero =>
    constructor
    · intro node h
      exfalso
      cases node
      simp only [Node.mk.sizeOf_spec] at h
      omega
    · intro children h
      exfalso
      cases children with
      | nil => simp only [List.nil.sizeOf_spec] at h; omega
      | cons c cs => simp only [List.cons.sizeOf_spec] at h; omega
  | succ N ih =>
    constructor
    · intro node hN cwd fs fs' tr h
      have hch : sizeOf node.children ≤ N := by
        cases node
        simp only [Node.mk.sizeOf_spec] at hN
        simp only []
        omega
      cases hdir : node.dir with
      | none => rw [walkTrace_eq, hdir] at h; simp at h
      | some nm =>
        rw [walkTrace_eq, hdir] at h
        cases hinc : should_include node enabled with
        | false =>
          simp only [hinc, Bool.false_eq_true, if_false, Except.ok.injEq,
            Prod.mk.injEq] at h
          obtain ⟨hfs, htr⟩ := h
          subst htr
          refine ⟨[], fun fs0 cr => ?_, List.Sublist.refl [], fun _ => rfl⟩
          rw [walk_eq, hdir]
          simp [hinc]
        | true =>
          simp only [hinc, if_true] at h
          cases hwf : walkFilesTrace force add vars_ troot (cwd ++ [render nm vars_])
              node.files (fs.mkdirP (cwd ++ [render nm vars_])) with
          | error e => rw [hwf] at h; simp at h
          | ok p =>
            obtain ⟨fs2, tr2⟩ := p
            rw [hwf] at h
            simp only [] at h
            cases hwc : walkChildrenTrace force add vars_ troot enabled node.children
                (cwd ++ [render nm vars_]) fs2 with
            | error e => rw [hwc] at h; simp at h
            | ok q =>
              obtain ⟨fs3, tr3⟩ := q
              rw [hwc] at h
              simp only [Except.ok.injEq, Prod.mk.injEq] at h
              obtain ⟨hfs, htr⟩ := h
              subst htr
              obtain ⟨s2, hd2, hsub2, heq2⟩ :=
                walkFilesTrace_dry force add vars_ troot _ node.files _ fs2 tr2 hwf
              obtain ⟨s3, hd3, hsub3, heq3⟩ :=
                (ih.2 node.children hch) _ fs2 fs3 tr3 hwc
              refine ⟨Act.DIR (cwd ++ [render nm vars_]) :: (s2 ++ s3), ?_, ?_, ?_⟩
              · intro fs0 cr
                rw [walk_eq, hdir]
                simp only [hinc, if_true, if_pos rfl]
                rw [hd2 fs0 (cr ++ [Act.DIR (cwd ++ [render nm vars_])])]
                show walkChildren force add true vars_ troot enabled node.children
                    (cwd ++ [render nm vars_]) fs0
                    (cr ++ [Act.DIR (cwd ++ [render nm vars_])] ++ s2) = _
                rw [hd3 fs0 (cr ++ [Act.DIR (cwd ++ [render nm vars_])] ++ s2)]
                simp [List.append_assoc]
              · exact List.Sublist.cons₂ _ (List.Sublist.append hsub2 hsub3)
              · intro hforce
                rw [heq2 hforce, heq3 hforce]
    · intro children hN dir_path fs fs' tr h
      cases children with
      | nil =>
        rw [walkChildrenTrace_nil] at h
        simp only [Except.ok.injEq, Prod.mk.injEq] at h
        obtain ⟨hfs, htr⟩ := h
        subst htr
        exact ⟨[], fun fs0 cr => by rw [walkChildren_nil]; simp,
          List.Sublist.refl [], fun _ => rfl⟩
      | cons c rest =>
        have hc : sizeOf c ≤ N := by
          simp only [List.cons.sizeOf_spec] at hN
          omega
        have hrest : sizeOf rest ≤ N := by
          simp only [List.cons.sizeOf_spec] at hN
          have : 0 < sizeOf c := by cases c; simp only [Node.mk.sizeOf_spec]; omega
          omega
        rw [walkChildrenTrace_cons] at h
        cases hinc : should_include c enabled with
        | false =>
          rw [if_neg (by simp [hinc])] at h
          obtain ⟨suffix, hd, hsub, heq⟩ := (ih.2 rest hrest) dir_path fs fs' tr h
          refine ⟨suffix, fun fs0 cr => ?_, hsub, heq⟩
          rw [walkChildren_cons, if_neg (by simp [hinc])]
          exact hd fs0 cr
        | true =>
          rw [if_pos hinc] at h
          cases hw : walkTrace force add vars_ troot enabled c dir_path fs with
          | error e => rw [hw] at h; simp at h
          | ok p =>
            obtain ⟨fs1, tr1⟩ := p
            rw [hw] at h
            simp only [] at h
            cases hwc : walkChildrenTrace force add vars_ troot enabled rest dir_path
                fs1 with
            | error e => rw [hwc] at h; simp at h
            | ok q =>
              obtain ⟨fs2, tr2⟩ := q
              rw [hwc] at h
              simp only [Except.ok.injEq, Prod.mk.injEq] at h
              obtain ⟨hfs, htr⟩ := h
              subst htr
              obtain ⟨s1, hd1, hsub1, heq1⟩ := (ih.1 c hc) dir_path fs fs1 tr1 hw
              obtain ⟨s2, hd2, hsub2, heq2⟩ := (ih.2 rest hrest) dir_path fs1 fs2 tr2 hwc
              refine ⟨s1 ++ s2, ?_, List.Sublist.append hsub1 hsub2, ?_⟩
              · intro fs0 cr
                rw [walkChildren_cons, if_pos hinc, hd1 fs0 cr]
                show walkChildren force add true vars_ troot enabled rest dir_path fs0
                    (cr ++ s1) = _
                rw [hd2 fs0 (cr ++ s1), List.append_assoc]
              · intro hforce
                rw [heq1 hforce, heq2 hforce]

/-- C3 counterexample: from an initial state in which the destination file
already exists, with force=false and add=false the dry run lists the file
action while the real run with the same flags aborts with a conflict and
creates nothing — so the dry-run action path set does not equal the set of
paths the real run creates. -/
theorem dry_real_counterexample :
    walk false false true [] [] []
        ⟨some "d", none, false, [⟨some "a", some "c", none, none⟩], []⟩ []
        ⟨[[], ["d"]], [(["d", "a"], "x")]⟩ [] =
      .ok (⟨[[], ["d"]], [(["d", "a"], "x")]⟩,
        [Act.DIR ["d"], Act.FILE ["d", "a"] none])
    ∧ walk false false false [] [] []
        ⟨some "d", none, false, [⟨some "a", some "c", none, none⟩], []⟩ []
        ⟨[[], ["d"]], [(["d", "a"], "x")]⟩ [] =
      .error (.conflict ["d", "a"]) := by
  constructor
  · rw [walk_eq]
    simp [should_include, walkFiles, processEntry, cond_pass, render, walkChildren_nil]
  · rw [walk_eq]
    simp [should_include, walkFiles, processEntry, cond_pass, render, FS.exists,
      FS.fileExists, FS.mkdirP, List.inits]

/-- C3 (amended): the real-mode `walk` is the projection of the instrumented
`walkTrace`, and whenever the (instrumented) real run succeeds, the dry run
from the same state succeeds, extends its accumulator by a suffix of which
the real run's performed-action sequence is a sublist — with equality of the
two sequences (hence of their path sets and their ordering) whenever no file
is skipped, in particular whenever force=true. -/
theorem dry_run_refines_real :
    (∀ force add vars_ troot enabled node cwd (fs : FS) (created : List Act),
      walk force add false vars_ troot enabled node cwd fs created =
        match walkTrace force add vars_ troot enabled node cwd fs with
        | .ok (fs', _) => .ok (fs', created)
        | .error e => .error e)
    ∧ (∀ force add vars_ troot enabled node cwd (fs fs' : FS) (tr : List Act),
        walkTrace force add vars_ troot enabled node cwd fs = .ok (fs', tr) →
        ∃ suffix, (∀ (fs0 : FS) (cr : List Act),
            walk force add true vars_ troot enabled node cwd fs0 cr =
              .ok (fs0, cr ++ suffix))
          ∧ List.Sublist tr suffix ∧ (force = true → tr = suffix)) := by
  constructor
  · intro force add vars_ troot enabled node cwd fs created
    exact (walk_agrees_aux force add vars_ troot enabled (sizeOf node)).1 node
      (le_refl _) cwd fs created
  · intro force add vars_ troot enabled node cwd fs fs' tr h
    exact (walkTrace_dry_aux force add vars_ troot enabled (sizeOf node)).1 node
      (le_refl _) cwd fs fs' tr h

/-- Witness for the amended C3: a concrete forced real run whose trace the
dry run reproduces exactly. -/
theorem dry_run_refines_real_witness :
    ∃ suffix, (∀ (fs0 : FS) (cr : List Act),
        walk true false true [] [] []
          ⟨some "d", none, false, [⟨some "a", some "c", none, none⟩], []⟩ [] fs0 cr =
          .ok (fs0, cr ++ suffix))
      ∧ List.Sublist [Act.DIR ["d"], Act.FILE ["d", "a"] none] suffix
      ∧ (true = true → [Act.DIR ["d"], Act.FILE ["d", "a"] none] = suffix) := by
  apply dry_run_refines_real.2 true false [] [] []
    ⟨some "d", none, false, [⟨some "a", some "c", none, none⟩], []⟩ []
    ⟨[[], ["d"]], [(["d", "a"], "x")]⟩ ⟨[[], ["d"]], [(["d", "a"], "c")]⟩
    [Act.DIR ["d"], Act.FILE ["d", "a"] none]
  rw [walkTrace_eq]
  simp [should_include, walkFilesTrace, processEntryTrace, cond_pass, render,
    walkChildrenTrace_nil, FS.exists, FS.fileExists, FS.mkdirP, FS.writeFile, List.inits]
